import Mathlib

/-!
# Verification of the folder/file hierarchy and soft-delete core

A shallow embedding of the metadata core of a drive-clone web application:
the Mongo-backed folder/file hierarchy with cascading soft delete, per-scope
duplicate-name checks, and natural-order listing.

Conventions of the embedding:
* Mongo ObjectIds and user ids are opaque `String`s; timestamps are `Nat`.
* A collection is a `List` of records in insertion order.  `findOne` is
  `List.find?`, `findOneAndUpdate` updates the first match, `updateMany`
  maps over the list, `find` is `List.filter`, inserting appends.
* Only the fields the verified routes read or write are modelled
  (`path`/`cloudUrl`/`storageType` bookkeeping and the ORM-maintained
  `createdAt`/`updatedAt` refresh on save are outside every claim).
* JavaScript strings are modelled for their ASCII fragment: `trim`,
  `length`, `toLowerCase`/`toUpperCase` agree with the JS semantics there.
* `Array.prototype.sort` (a stable comparison sort) is modelled by a stable
  insertion sort; `String.prototype.localeCompare` with
  `{numeric: true, sensitivity: 'base'}` is modelled by a case-insensitive
  digit-run-aware comparison on code points.
* `JSON`-level truthiness of an optional string (`if (x)`) is `truthy`.
-/

namespace Drive

/-- An `Ordering` counts as less-or-equal when it is not `.gt`
(a JS comparator result `<= 0`). -/
def ordIsLE (o : Ordering) : Bool :=
  match o with
  | .gt => false
  | _ => true

/-- `String.prototype.trim`, modelled structurally on the character list
(ASCII/Unicode whitespace as recognised by `Char.isWhitespace`). -/
def jsTrim (s : String) : String :=
  String.mk (((s.data.dropWhile Char.isWhitespace).reverse.dropWhile
    Char.isWhitespace).reverse)

/-- ASCII `toUpperCase` on one character. -/
def upperChar (c : Char) : Char :=
  if 97 ≤ c.toNat ∧ c.toNat ≤ 122 then Char.ofNat (c.toNat - 32) else c

/-- ASCII `toUpperCase`, modelled structurally. -/
def upperStr (s : String) : String := String.mk (s.data.map upperChar)

/-- ASCII `toLowerCase` on one character. -/
def lowerChar (c : Char) : Char :=
  if 65 ≤ c.toNat ∧ c.toNat ≤ 90 then Char.ofNat (c.toNat + 32) else c

/-- ASCII `toLowerCase`, modelled structurally. -/
def lowerStr (s : String) : String := String.mk (s.data.map lowerChar)

/-- Three-way comparison on `Nat`, the base comparator of the model. -/
def cmpNat (a b : Nat) : Ordering :=
  if a < b then .lt else if b < a then .gt else .eq

/-- Lexicographic extension of a three-way comparator to lists. -/
def cmpListLex (cmp : α → α → Ordering) : List α → List α → Ordering
  | [], [] => .eq
  | [], _ :: _ => .lt
  | _ :: _, [] => .gt
  | a :: as, b :: bs =>
    match cmp a b with
    | .eq => cmpListLex cmp as bs
    | o => o

/-- The laws making a three-way comparator a total preorder comparison:
symmetry under swap, transitivity of `.lt`, and substitutivity of `.eq`. -/
structure LawfulCmp (cmp : α → α → Ordering) : Prop where
  swap : ∀ a b, cmp a b = (cmp b a).swap
  lt_trans : ∀ a b c, cmp a b = .lt → cmp b c = .lt → cmp a c = .lt
  eq_congr : ∀ a b c, cmp a b = .eq → cmp a c = cmp b c

/-- ASCII `toLowerCase` on a code point (models the JS call for ASCII data). -/
def lowerCode (n : Nat) : Nat :=
  if 65 ≤ n ∧ n ≤ 90 then n + 32 else n

/-- ASCII digit test on a code point. -/
def isDigitCode (n : Nat) : Bool :=
  decide (48 ≤ n) && decide (n ≤ 57)

/-- A maximal run of a string: either a run of digits or a run of other
characters, as split by numeric-aware collation. -/
inductive NChunk where
  | num (digits : List Nat)
  | str (codes : List Nat)
deriving DecidableEq, Repr

/-- Split a code-point list into maximal digit / non-digit runs. -/
def chunksOf (codes : List Nat) : List NChunk :=
  codes.foldr
    (fun c acc =>
      if isDigitCode c then
        match acc with
        | NChunk.num ds :: rest => NChunk.num (c :: ds) :: rest
        | _ => NChunk.num [c] :: acc
      else
        match acc with
        | NChunk.str cs :: rest => NChunk.str (c :: cs) :: rest
        | _ => NChunk.str [c] :: acc)
    []

/-- Numeric value of a digit run (the JS numeric-collation key). -/
def digitsVal (ds : List Nat) : Nat :=
  ds.foldl (fun n d => n * 10 + (d - 48)) 0

/-- Compare two runs: digit runs numerically (ties broken by run length),
digit runs before other runs, other runs by code point. -/
def cmpChunk : NChunk → NChunk → Ordering
  | .num a, .num b =>
    match cmpNat (digitsVal a) (digitsVal b) with
    | .eq => cmpNat a.length b.length
    | o => o
  | .num _, .str _ => .lt
  | .str _, .num _ => .gt
  | .str a, .str b => cmpListLex cmpNat a b

/-- Lowercased code points of a string (ASCII model of `s.toLowerCase()`). -/
def codesOf (s : String) : List Nat :=
  s.data.map (fun c => lowerCode c.toNat)

/-- `customFileNameSort` (src/lib/clientUtils.ts): case-insensitive
natural comparison, modelling
`a.toLowerCase().localeCompare(b.toLowerCase(), undefined, {numeric: true, sensitivity: 'base'})`
as an `Ordering` (negative result ↦ `.lt`, zero ↦ `.eq`, positive ↦ `.gt`). -/
def customFileNameSort (a b : String) : Ordering :=
  cmpListLex cmpChunk (chunksOf (codesOf a)) (chunksOf (codesOf b))

/-- Insert an element into a sorted list, before the first element it is
less-or-equal to (the stable position). -/
def insertSorted (le : α → α → Bool) (a : α) : List α → List α
  | [] => [a]
  | b :: l => if le a b then a :: b :: l else b :: insertSorted le a l

/-- Stable insertion sort, modelling the stable `Array.prototype.sort`. -/
def insertionSort (le : α → α → Bool) : List α → List α
  | [] => []
  | a :: l => insertSorted le a (insertionSort le l)

/-- The `sortBy` query values accepted by the list routes. -/
inductive SortKey where
  | name
  | date
  | size
deriving DecidableEq, Repr

/-- The `order` query values accepted by the list routes. -/
inductive SortOrder where
  | asc
  | desc
deriving DecidableEq, Repr

/-- `sortItems` (src/lib/clientUtils.ts), generic over the record type via
its three projections, exactly mirroring the TS generic bound
`{name, createdAt, updatedAt}` with the `size || 0` cast. -/
def sortItems (getName : α → String) (getUpd : α → Nat) (getSize : α → Nat)
    (sortBy : SortKey) (order : SortOrder) (items : List α) : List α :=
  let cmp : α → α → Ordering := fun a b =>
    match sortBy with
    | .name => customFileNameSort (getName a) (getName b)
    | .date => cmpNat (getUpd a) (getUpd b)
    | .size => cmpNat (getSize a) (getSize b)
  let cmpOrd : α → α → Ordering := fun a b =>
    match order with
    | .asc => cmp a b
    | .desc => (cmp a b).swap
  insertionSort (fun a b => ordIsLE (cmpOrd a b)) items

/-! ## Data model (src/lib/models.ts) -/

/-- A document of the `Folder` collection (folderSchema).  `mid` is the
Mongo `_id`; `parentId = none` is the root scope. -/
structure FolderR where
  mid : String
  name : String
  userId : String
  parentId : Option String
  isDeleted : Bool
  deletedAt : Option Nat
  updatedAt : Nat
deriving DecidableEq, Repr

/-- A document of the `File` collection (fileSchema).  `name` is the stored
unique filename generated at upload; `originalName` the display name. -/
structure FileR where
  mid : String
  name : String
  originalName : String
  size : Nat
  mimeType : String
  userId : String
  folderId : Option String
  isDeleted : Bool
  deletedAt : Option Nat
  updatedAt : Nat
deriving DecidableEq, Repr

/-- The metadata database: both collections, in insertion order. -/
structure DB where
  folders : List FolderR
  files : List FileR
deriving DecidableEq, Repr

/-! ## Store primitives -/

/-- `findOneAndUpdate`: apply `m` to the first element satisfying `p`. -/
def updateFirst (p : α → Bool) (m : α → α) : List α → List α
  | [] => []
  | a :: l => if p a then m a :: l else a :: updateFirst p m l

/-- JS truthiness of an optional string (`null`/`undefined`/`''` are falsy). -/
def truthy (o : Option String) : Bool :=
  match o with
  | none => false
  | some s => !(s == "")

/-- The JS expression `x || null` on an optional string. -/
def jsOrNull (o : Option String) : Option String :=
  if truthy o then o else none

/-- `Folder.findOne({_id, userId, isDeleted: false})`, the by-id lookup
every folder route uses. -/
def findLiveOwnedFolder (db : DB) (id u : String) : Option FolderR :=
  db.folders.find? (fun f => f.mid == id && f.userId == u && f.isDeleted == false)

/-- `File.findOne({_id, userId, isDeleted: false})`, the by-id lookup
every file route uses. -/
def findLiveOwnedFile (db : DB) (id u : String) : Option FileR :=
  db.files.find? (fun x => x.mid == id && x.userId == u && x.isDeleted == false)

/-- Set the soft-delete flag and timestamp of a folder document
(`{isDeleted: true, deletedAt: new Date()}`). -/
def markFolder (now : Nat) (f : FolderR) : FolderR :=
  { f with isDeleted := true, deletedAt := some now }

/-- Set the soft-delete flag and timestamp of a file document. -/
def markFile (now : Nat) (x : FileR) : FileR :=
  { x with isDeleted := true, deletedAt := some now }

/-! ## Error taxonomy (client-facing error responses) -/

/-- A structured error response: 400 validation, 404 not-found,
409 duplicate, 500 server. -/
inductive ApiErr where
  | validation (msg : String)
  | notFound (msg : String)
  | duplicate (msg : String)
  | server (msg : String)
deriving DecidableEq, Repr

/-- Decidable equality of handler results, for evaluating the model on
concrete inputs. -/
instance {ε α : Type} [DecidableEq ε] [DecidableEq α] : DecidableEq (Except ε α) :=
  fun a b =>
    match a, b with
    | .ok x, .ok y =>
      if h : x = y then isTrue (by rw [h]) else isFalse (fun hc => h (Except.ok.inj hc))
    | .error e, .error e2 =>
      if h : e = e2 then isTrue (by rw [h]) else isFalse (fun hc => h (Except.error.inj hc))
    | .ok _, .error _ => isFalse (fun hc => Except.noConfusion hc)
    | .error _, .ok _ => isFalse (fun hc => Except.noConfusion hc)

/-- Discriminator: is this a 400 validation error response. -/
def isValidationErr (r : Except ApiErr α) : Bool :=
  match r with
  | .error (.validation _) => true
  | _ => false

/-- Discriminator: did the call return the created/updated entity. -/
def isOk (r : Except ApiErr α) : Bool :=
  match r with
  | .ok _ => true
  | .error _ => false

/-! ## Folder routes (src/app/api/folders) -/

/-- `GET /api/folders` scope filter: `parentId === 'root' || parentId === null`
selects the root scope; a falsy non-null value (`''`) leaves the scope
unconstrained; any other value selects that parent. -/
def parentScopeFilter (parentId : Option String) (v : Option String) : Bool :=
  match parentId with
  | none => v == none
  | some "root" => v == none
  | some "" => true
  | some s => v == some s

/-- `GET /api/folders` (route.ts): all live folders of the user in the
requested scope, sorted by `sortItems` (folders have no size; `size || 0`). -/
def foldersGET (u : String) (parentId : Option String) (sortBy : SortKey)
    (order : SortOrder) (db : DB) : List FolderR :=
  sortItems FolderR.name FolderR.updatedAt (fun _ => 0) sortBy order
    (db.folders.filter (fun f =>
      f.userId == u && f.isDeleted == false && parentScopeFilter parentId f.parentId))

/-- `POST /api/folders`: validate the name (required, non-empty after trim,
at most 100 chars), resolve the parent when truthy, reject duplicates in the
scope (exact match on the trimmed name), then insert a live folder.
`newId`/`now` model the generated ObjectId and clock. -/
def foldersPOST (u name : String) (parentId : Option String)
    (newId : String) (now : Nat) (db : DB) : Except ApiErr FolderR × DB :=
  if name == "" then (.error (.validation "Folder name is required"), db)
  else
    let trimmedName := jsTrim name
    if trimmedName.length == 0 then
      (.error (.validation "Folder name cannot be empty"), db)
    else if trimmedName.length > 100 then
      (.error (.validation "Folder name cannot exceed 100 characters"), db)
    else
      let afterParentCheck : Except ApiErr FolderR × DB :=
        match db.folders.find? (fun f => f.name == trimmedName && f.userId == u
            && f.parentId == jsOrNull parentId && f.isDeleted == false) with
        | some _ =>
          (.error (.duplicate "A folder with this name already exists in this location"), db)
        | none =>
          let folder : FolderR :=
            { mid := newId, name := trimmedName, userId := u,
              parentId := jsOrNull parentId, isDeleted := false,
              deletedAt := none, updatedAt := now }
          (.ok folder, { db with folders := db.folders ++ [folder] })
      if truthy parentId then
        match findLiveOwnedFolder db (parentId.getD "") u with
        | none => (.error (.notFound "Parent folder not found"), db)
        | some _ => afterParentCheck
      else afterParentCheck

/-- `GET /api/folders/[id]`: by-id metadata lookup.  Absent, soft-deleted and
foreign-owned ids all fall into the same 404 branch. -/
def folderGET (u id : String) (db : DB) : Except ApiErr FolderR :=
  match findLiveOwnedFolder db id u with
  | none => .error (.notFound "Folder not found")
  | some f => .ok f

/-- `PUT /api/folders/[id]`: rename.  Validates like create, re-checks the
duplicate in the folder's existing parent scope excluding itself, then saves
the new name on the found document. -/
def folderPUT (u id name : String) (db : DB) : Except ApiErr FolderR × DB :=
  if name == "" then (.error (.validation "Folder name is required"), db)
  else
    let trimmedName := jsTrim name
    if trimmedName.length == 0 then
      (.error (.validation "Folder name cannot be empty"), db)
    else if trimmedName.length > 100 then
      (.error (.validation "Folder name cannot exceed 100 characters"), db)
    else
      match findLiveOwnedFolder db id u with
      | none => (.error (.notFound "Folder not found"), db)
      | some folder =>
        match db.folders.find? (fun f => f.name == trimmedName && f.userId == u
            && f.parentId == folder.parentId && f.isDeleted == false
            && !(f.mid == id)) with
        | some _ =>
          (.error (.duplicate "A folder with this name already exists in this location"), db)
        | none =>
          let newFolders := updateFirst
            (fun f => f.mid == id && f.userId == u && f.isDeleted == false)
            (fun f => { f with name := trimmedName }) db.folders
          (.ok { folder with name := trimmedName }, { db with folders := newFolders })

/-- One fold step of the cascade: run the recursive call unless an earlier
sibling already failed (a thrown error unwinds the whole loop). -/
def cascadeStep (go : String → DB → Bool × DB) (acc : Bool × DB) (c : String) :
    Bool × DB :=
  if acc.1 then go c acc.2 else acc

/-- `softDeleteFolderRecursive` (folders/[id]/route.ts): mark the folder
deleted, mark all its live files deleted, then recurse into each live child
folder.  `fuel` bounds the recursion depth (the JS recursion has no bound;
exhaustion models a stack overflow aborting the request, flag `false`). -/
def softDeleteFolderRecursive : Nat → String → String → Nat → DB → Bool × DB
  | 0, _, _, _, db => (false, db)
  | Nat.succ n, folderId, userId, now, db =>
    let foldersA := updateFirst
      (fun f => f.mid == folderId && f.userId == userId) (markFolder now) db.folders
    let dbA : DB := { db with folders := foldersA }
    let filesB := dbA.files.map (fun x =>
      if x.folderId == some folderId && x.userId == userId && x.isDeleted == false
      then markFile now x else x)
    let dbB : DB := { dbA with files := filesB }
    let subs : List String := (dbB.folders.filter (fun f =>
        f.parentId == some folderId && f.userId == userId && f.isDeleted == false)).map
        FolderR.mid
    subs.foldl (cascadeStep (fun c db2 => softDeleteFolderRecursive n c userId now db2))
      (true, dbB)

/-- `DELETE /api/folders/[id]`: look up the live owned folder (404 otherwise,
also when it is already soft-deleted), then run the recursive cascade. -/
def folderDELETE (u id : String) (fuel now : Nat) (db : DB) :
    Except ApiErr Unit × DB :=
  match findLiveOwnedFolder db id u with
  | none => (.error (.notFound "Folder not found"), db)
  | some _ =>
    let r := softDeleteFolderRecursive fuel id u now db
    if r.1 then (.ok (), r.2) else (.error (.server "Failed to delete folder"), r.2)

/-! ## File routes (src/app/api/files) -/

/-- `GET /api/files` scope filter (same shape as the folder listing). -/
def folderScopeFilter (folderId : Option String) (v : Option String) : Bool :=
  match folderId with
  | none => v == none
  | some "root" => v == none
  | some "" => true
  | some s => v == some s

/-- `GET /api/files` (route.ts): all live files of the user in the requested
scope, sorted by `sortItems` — note the sort key is the stored `name`. -/
def filesGET (u : String) (folderId : Option String) (sortBy : SortKey)
    (order : SortOrder) (db : DB) : List FileR :=
  sortItems FileR.name FileR.updatedAt FileR.size sortBy order
    (db.files.filter (fun x =>
      x.userId == u && x.isDeleted == false && folderScopeFilter folderId x.folderId))

/-- The MIME allow-list `ALLOWED_FILE_TYPES` (src/lib/clientUtils.ts). -/
def ALLOWED_FILE_TYPES : List String :=
  ["image/jpeg", "image/png", "image/gif", "image/webp", "application/pdf",
   "text/plain", "text/csv", "application/vnd.ms-excel",
   "application/vnd.openxmlformats-officedocument.spreadsheetml.sheet",
   "application/msword",
   "application/vnd.openxmlformats-officedocument.wordprocessingml.document",
   "application/vnd.ms-powerpoint",
   "application/vnd.openxmlformats-officedocument.presentationml.presentation",
   "application/zip", "application/x-rar-compressed", "video/mp4", "video/avi",
   "video/quicktime", "audio/mpeg", "audio/wav", "application/json"]

/-- `isAllowedFileType` (src/lib/clientUtils.ts). -/
def isAllowedFileType (mimeType : String) : Bool :=
  ALLOWED_FILE_TYPES.contains mimeType

/-- `validateFileUpload` (src/lib/clientUtils.ts): size cap, MIME allow-list,
filename at most 255 chars and non-empty after trim.  Returns the error
message, if any. -/
def validateFileUpload (maxFileSize : Nat) (size : Nat) (mimeType fname : String) :
    Option String :=
  if size > maxFileSize then some "File size exceeds maximum allowed size"
  else if !isAllowedFileType mimeType then some "File type is not allowed"
  else if fname.length > 255 then some "Filename is too long (maximum 255 characters)"
  else if jsTrim fname == "" then some "Filename cannot be empty"
  else none

/-- The stored scope of an upload: `folderId === 'root' ? null : folderId`. -/
def fileScope (folderId : Option String) : Option String :=
  if folderId == some "root" then none else folderId

/-- `POST /api/files` (route.ts): validate the upload, resolve the target
folder when the form value is truthy and not `'root'`, reject a duplicate
`originalName` in the scope, then insert the file record.  `storedName`
models `generateUniqueFilename(file.name)`, `newId`/`now` the generated id
and clock; writing the bytes to disk is outside the metadata model. -/
def filesPOST (u fname : String) (fsize : Nat) (fmime : String)
    (folderId : Option String) (maxFileSize : Nat) (storedName newId : String)
    (now : Nat) (db : DB) : Except ApiErr FileR × DB :=
  match validateFileUpload maxFileSize fsize fmime fname with
  | some msg => (.error (.validation msg), db)
  | none =>
    let afterFolderCheck : Except ApiErr FileR × DB :=
      match db.files.find? (fun x => x.originalName == fname && x.userId == u
          && x.folderId == fileScope folderId && x.isDeleted == false) with
      | some _ =>
        (.error (.duplicate "A file with this name already exists in this location"), db)
      | none =>
        let fileRecord : FileR :=
          { mid := newId, name := storedName, originalName := fname, size := fsize,
            mimeType := fmime, userId := u, folderId := fileScope folderId,
            isDeleted := false, deletedAt := none, updatedAt := now }
        (.ok fileRecord, { db with files := db.files ++ [fileRecord] })
    if truthy folderId && !(folderId == some "root") then
      match findLiveOwnedFolder db (folderId.getD "") u with
      | none => (.error (.notFound "Folder not found"), db)
      | some _ => afterFolderCheck
    else afterFolderCheck

/-- `GET /api/files/[id]`: by-id metadata lookup with the uniform 404. -/
def fileGET (u id : String) (db : DB) : Except ApiErr FileR :=
  match findLiveOwnedFile db id u with
  | none => .error (.notFound "File not found")
  | some x => .ok x

/-- `PUT /api/files/[id]`: rename.  Validates the new `originalName`
(required, non-empty after trim, at most 255 chars), re-checks the duplicate
in the file's current folder excluding itself, then saves. -/
def filePUT (u id originalName : String) (db : DB) : Except ApiErr FileR × DB :=
  if originalName == "" then (.error (.validation "File name is required"), db)
  else
    let trimmedName := jsTrim originalName
    if trimmedName.length == 0 then
      (.error (.validation "File name cannot be empty"), db)
    else if trimmedName.length > 255 then
      (.error (.validation "File name cannot exceed 255 characters"), db)
    else
      match findLiveOwnedFile db id u with
      | none => (.error (.notFound "File not found"), db)
      | some file =>
        match db.files.find? (fun x => x.originalName == trimmedName && x.userId == u
            && x.folderId == file.folderId && x.isDeleted == false
            && !(x.mid == id)) with
        | some _ =>
          (.error (.duplicate "A file with this name already exists in this location"), db)
        | none =>
          let newFiles := updateFirst
            (fun x => x.mid == id && x.userId == u && x.isDeleted == false)
            (fun x => { x with originalName := trimmedName }) db.files
          (.ok { file with originalName := trimmedName }, { db with files := newFiles })

/-- `DELETE /api/files/[id]`: look up the live owned file (uniform 404), then
soft delete via `findOneAndUpdate({_id, userId}, {isDeleted, deletedAt})`. -/
def fileDELETE (u id : String) (now : Nat) (db : DB) : Except ApiErr Unit × DB :=
  match findLiveOwnedFile db id u with
  | none => (.error (.notFound "File not found"), db)
  | some _ =>
    let newFiles := updateFirst
      (fun x => x.mid == id && x.userId == u) (markFile now) db.files
    (.ok (), { db with files := newFiles })

/-- `GET /api/files/[id]/download`: the lookup stage of the download route.
On success the route streams/redirects content; only the lookup outcome is a
metadata-level fact. -/
def downloadGET (u id : String) (db : DB) : Except ApiErr FileR :=
  match findLiveOwnedFile db id u with
  | none => .error (.notFound "File not found")
  | some x => .ok x

/-- `GET /api/files/[id]/preview`: same lookup as download; the two differ
only in response headers. -/
def previewGET (u id : String) (db : DB) : Except ApiErr FileR :=
  match findLiveOwnedFile db id u with
  | none => .error (.notFound "File not found")
  | some x => .ok x

/-! ## Client-side folder-name validation (CreateFolderModal) -/

/-- The reserved OS device names the modal rejects. -/
def reservedNames : List String :=
  ["CON", "PRN", "AUX", "NUL", "COM1", "COM2", "COM3", "COM4", "COM5", "COM6",
   "COM7", "COM8", "COM9", "LPT1", "LPT2", "LPT3", "LPT4", "LPT5", "LPT6",
   "LPT7", "LPT8", "LPT9"]

/-- The disallowed characters `< > : " / \ | ? *`. -/
def invalidFolderChars : List Char :=
  ['<', '>', ':', '"', '/', '\\', '|', '?', '*']

/-- `validateFolderName` (CreateFolderModal, client side): empty / overlong /
invalid characters / reserved names / case-insensitive duplicate against the
currently listed sibling folders.  Returns the error message, if any. -/
def validateFolderName (folders : List FolderR) (currentParentId : Option String)
    (name : String) : Option String :=
  if jsTrim name == "" then some "Folder name is required"
  else if (jsTrim name).length > 100 then some "Folder name cannot exceed 100 characters"
  else if name.data.any (fun c => invalidFolderChars.contains c) then
    some "Folder name contains invalid characters"
  else if reservedNames.contains (upperStr (jsTrim name)) then
    some "This folder name is reserved by the system"
  else if folders.any (fun f => lowerStr f.name == lowerStr (jsTrim name)
      && f.parentId == currentParentId) then
    some "A folder with this name already exists in this location"
  else none

/-! ## Invariants and relations over the data model -/

/-- P2 / I3 / I5 (no orphans): every live folder or file whose parent
reference is non-null points to a live folder of the same user. -/
def noOrphansB (db : DB) : Bool :=
  db.folders.all (fun f => f.isDeleted ||
    (match f.parentId with
     | none => true
     | some p => db.folders.any (fun g =>
        g.mid == p && g.isDeleted == false && g.userId == f.userId))) &&
  db.files.all (fun x => x.isDeleted ||
    (match x.folderId with
     | none => true
     | some p => db.folders.any (fun g =>
        g.mid == p && g.isDeleted == false && g.userId == x.userId)))

/-- Soft-delete timestamp invariant: a deleted entity carries a `deletedAt`. -/
def delInvB (db : DB) : Bool :=
  db.folders.all (fun f => !f.isDeleted || f.deletedAt.isSome) &&
  db.files.all (fun x => !x.isDeleted || x.deletedAt.isSome)

/-- A freshly returned entity is live with no deletion timestamp (vacuous on
error results). -/
def freshFolder (r : Except ApiErr FolderR) : Bool :=
  match r with
  | .ok f => f.isDeleted == false && f.deletedAt == none
  | .error _ => true

/-- File version of `freshFolder`. -/
def freshFile (r : Except ApiErr FileR) : Bool :=
  match r with
  | .ok x => x.isDeleted == false && x.deletedAt == none
  | .error _ => true

/-- `Reaches db root h`: the folder id `h` is reachable from `root` by
following child links (a chain of `parentId` references leading up to
`root`), irrespective of liveness or ownership. -/
inductive Reaches (db : DB) (root : String) : String → Prop where
  | refl : Reaches db root root
  | step {g : FolderR} {p : String} : g ∈ db.folders → g.parentId = some p →
      Reaches db root p → Reaches db root g.mid

/-- `ReachesLive db u root h`: reachability through live folders owned by
`u` — the set the recursive cascade actually visits. -/
inductive ReachesLive (db : DB) (u root : String) : String → Prop where
  | refl : ReachesLive db u root root
  | step {g : FolderR} {p : String} : g ∈ db.folders → g.isDeleted = false →
      g.userId = u → g.parentId = some p → ReachesLive db u root p →
      ReachesLive db u root g.mid

/-- A descending chain of live folders of `u` below `root`: the recorded
list is the successive child ids.  Its length bounds the recursion depth the
cascade needs below `root`. -/
inductive LiveChain (db : DB) (u : String) : String → List String → Prop where
  | nil {root : String} : LiveChain db u root []
  | cons {root : String} {g : FolderR} {l : List String} : g ∈ db.folders →
      g.isDeleted = false → g.userId = u → g.parentId = some root →
      LiveChain db u g.mid l → LiveChain db u root (g.mid :: l)

/-- One folder document evolved by at most a soft-delete mark at time `now`. -/
def FolderEvo (now : Nat) (f f' : FolderR) : Prop :=
  f' = f ∨ f' = markFolder now f

/-- One file document evolved by at most a soft-delete mark at time `now`. -/
def FileEvo (now : Nat) (x x' : FileR) : Prop :=
  x' = x ∨ x' = markFile now x

/-- Pointwise evolution of the whole database during one cascade: every
document is unchanged or soft-delete-marked, in place. -/
def DBEvo (now : Nat) (db db' : DB) : Prop :=
  List.Forall₂ (FolderEvo now) db.folders db'.folders ∧
  List.Forall₂ (FileEvo now) db.files db'.files

/-- The per-document contract of one cascade call rooted at `r` on state
`db`: the document is unchanged, or it was marked and its id was live-reachable
from `r` (frame/touch bound); and when the call completed (`ok`), every
document whose id is live-reachable from `r` ends up deleted (completeness). -/
def FolderRel (u : String) (now : Nat) (db : DB) (r : String) (ok : Bool)
    (f f' : FolderR) : Prop :=
  (f' = f ∨ (f' = markFolder now f ∧ f.userId = u ∧ ReachesLive db u r f.mid)) ∧
  (ok = true → ReachesLive db u r f.mid → f'.isDeleted = true)

/-- File version of `FolderRel`: a file is touched only if it was live,
owned, and sat directly inside a live-reachable folder; completeness marks
exactly those files. -/
def FileRel (u : String) (now : Nat) (db : DB) (r : String) (ok : Bool)
    (x x' : FileR) : Prop :=
  (x' = x ∨ (x' = markFile now x ∧ x.isDeleted = false ∧ x.userId = u ∧
    ∃ p, x.folderId = some p ∧ ReachesLive db u r p)) ∧
  (ok = true → x.isDeleted = false → x.userId = u →
    ∀ p, x.folderId = some p → ReachesLive db u r p → x'.isDeleted = true)

/-- Every folder document carrying id `h` is soft-deleted in `db`. -/
def folderAllDeleted (db : DB) (h : String) : Bool :=
  db.folders.all (fun f => !(f.mid == h) || f.isDeleted)

/-- Every file document carrying id `h` is soft-deleted in `db`. -/
def fileAllDeleted (db : DB) (h : String) : Bool :=
  db.files.all (fun x => !(x.mid == h) || x.isDeleted)

/-- The file-listing comparator for `sortBy=name`, `order=asc`: natural
case-insensitive less-or-equal on the stored `name` field. -/
def fileNameLe (a b : FileR) : Bool :=
  ordIsLE (customFileNameSort a.name b.name)

/-- Every document with id `r` in the folder collection is owned by `u`
(trivially true when the id is absent). -/
def OwnRoot (db : DB) (u r : String) : Prop :=
  ∀ f ∈ db.folders, f.mid = r → f.userId = u

/-- The contract of one recursive cascade call, for any root and state with
unique ids whose root id is owned: pointwise `FolderRel` and `FileRel`
between the input and output collections. -/
def CascadeSpec (u : String) (now : Nat) (go : String → DB → Bool × DB) : Prop :=
  ∀ c db, (db.folders.map FolderR.mid).Nodup → OwnRoot db u c →
    List.Forall₂ (FolderRel u now db c (go c db).1) db.folders (go c db).2.folders ∧
    List.Forall₂ (FileRel u now db c (go c db).1) db.files (go c db).2.files

/-- `FolderRel` for a whole list of cascade roots (the fold over the live
subfolders): touch bound and completeness against any root in `S`. -/
def FoldFolderRel (u : String) (now : Nat) (db : DB) (S : List String) (ok : Bool)
    (f f' : FolderR) : Prop :=
  (f' = f ∨ (f' = markFolder now f ∧ f.userId = u ∧
    ∃ c ∈ S, ReachesLive db u c f.mid)) ∧
  (ok = true → ∀ c ∈ S, ReachesLive db u c f.mid → f'.isDeleted = true)

/-- File version of `FoldFolderRel`. -/
def FoldFileRel (u : String) (now : Nat) (db : DB) (S : List String) (ok : Bool)
    (x x' : FileR) : Prop :=
  (x' = x ∨ (x' = markFile now x ∧ x.isDeleted = false ∧ x.userId = u ∧
    ∃ p, x.folderId = some p ∧ ∃ c ∈ S, ReachesLive db u c p)) ∧
  (ok = true → x.isDeleted = false → x.userId = u →
    ∀ p, x.folderId = some p → ∀ c ∈ S, ReachesLive db u c p → x'.isDeleted = true)

/-! # Theorems

## Comparator laws -/

theorem cmpNat_eq_lt {a b : Nat} : cmpNat a b = .lt ↔ a < b := by
  unfold cmpNat
  split_ifs with h1 h2 <;> simp [h1]

theorem cmpNat_eq_gt {a b : Nat} : cmpNat a b = .gt ↔ b < a := by
  unfold cmpNat
  split_ifs with h1 h2 <;> simp_all <;> omega

theorem cmpNat_eq_eq {a b : Nat} : cmpNat a b = .eq ↔ a = b := by
  unfold cmpNat
  split_ifs with h1 h2 <;> simp_all <;> omega

theorem cmpNat_lawful : LawfulCmp cmpNat := by
  refine ⟨?_, ?_, ?_⟩
  · intro a b
    rcases Nat.lt_trichotomy a b with h | h | h
    · rw [cmpNat_eq_lt.mpr h, cmpNat_eq_gt.mpr h]; rfl
    · subst h; rw [cmpNat_eq_eq.mpr rfl]; rfl
    · rw [cmpNat_eq_gt.mpr h, cmpNat_eq_lt.mpr h]; rfl
  · intro a b c hab hbc
    exact cmpNat_eq_lt.mpr (Nat.lt_trans (cmpNat_eq_lt.mp hab) (cmpNat_eq_lt.mp hbc))
  · intro a b c hab
    rw [cmpNat_eq_eq.mp hab]

theorem cmpListLex_eq_of_eq {cmp : α → α → Ordering} (h : LawfulCmp cmp) :
    ∀ {l1 l2 : List α}, cmpListLex cmp l1 l2 = .eq →
      ∀ l3, cmpListLex cmp l1 l3 = cmpListLex cmp l2 l3 := by
  intro l1
  induction l1 with
  | nil =>
    intro l2 h12 l3
    cases l2 with
    | nil => rfl
    | cons b bs => simp [cmpListLex] at h12
  | cons a as ih =>
    intro l2 h12 l3
    cases l2 with
    | nil => simp [cmpListLex] at h12
    | cons b bs =>
      have hab : cmp a b = .eq := by
        by_contra hne
        simp only [cmpListLex] at h12
        cases hcb : cmp a b <;> rw [hcb] at h12 <;> simp_all
      have htails : cmpListLex cmp as bs = .eq := by
        simpa [cmpListLex, hab] using h12
      cases l3 with
      | nil => rfl
      | cons c cs =>
        simp only [cmpListLex, h.eq_congr a b c hab]
        cases hbc : cmp b c
        · rfl
        · exact ih htails cs
        · rfl

theorem cmpListLex_lawful {cmp : α → α → Ordering} (h : LawfulCmp cmp) :
    LawfulCmp (cmpListLex cmp) := by
  refine ⟨?_, ?_, ?_⟩
  · intro l1
    induction l1 with
    | nil => intro l2; cases l2 <;> rfl
    | cons a as ih =>
      intro l2
      cases l2 with
      | nil => rfl
      | cons b bs =>
        simp only [cmpListLex, h.swap a b]
        cases hcb : cmp b a <;> simp [Ordering.swap, ih bs]
  · intro l1
    induction l1 with
    | nil =>
      intro l2 l3 h12 h13
      cases l2 with
      | nil => exact h13
      | cons b bs =>
        cases l3 with
        | nil => simp [cmpListLex] at h13
        | cons c cs => rfl
    | cons a as ih =>
      intro l2 l3 h12 h13
      cases l2 with
      | nil => simp [cmpListLex] at h12
      | cons b bs =>
        cases l3 with
        | nil => simp [cmpListLex] at h13
        | cons c cs =>
          cases hab : cmp a b <;> cases hbc : cmp b c <;>
            simp only [cmpListLex, hab, hbc] at h12 h13 ⊢ <;>
            try exact Ordering.noConfusion h12
          all_goals try exact Ordering.noConfusion h13
          · -- lt, lt
            simp [h.lt_trans a b c hab hbc]
          · -- lt, eq
            have hcb : cmp c b = .eq := by
              have hs := h.swap b c
              rw [hbc] at hs
              cases h3 : cmp c b <;> rw [h3] at hs <;> simp_all [Ordering.swap]
            have hac : cmp a c = .lt := by
              have e1 := h.eq_congr c b a hcb
              have e2 := h.swap a c
              have e3 := h.swap a b
              rw [e2, e1, ← e3, hab]
            simp [hac]
          · -- eq, lt
            simp [h.eq_congr a b c hab, hbc]
          · -- eq, eq
            have := h.eq_congr a b c hab
            rw [hbc] at this
            simp only [this]
            exact ih bs cs h12 h13
  · intro l1 l2 l3 h12
    exact cmpListLex_eq_of_eq h h12 l3

theorem cmpChunk_num_num (a b : List Nat) :
    cmpChunk (.num a) (.num b) =
      (match cmpNat (digitsVal a) (digitsVal b) with
       | .eq => cmpNat a.length b.length
       | o => o) := rfl

theorem cmpChunk_eq_congr :
    ∀ a b c, cmpChunk a b = .eq → cmpChunk a c = cmpChunk b c := by
  intro a b c hab
  cases a with
  | num da =>
    cases b with
    | num db =>
      have hval : digitsVal da = digitsVal db := by
        cases hv : cmpNat (digitsVal da) (digitsVal db) <;>
          simp only [cmpChunk_num_num, hv] at hab
        · exact Ordering.noConfusion hab
        · exact cmpNat_eq_eq.mp hv
        · exact Ordering.noConfusion hab
      have hlen : da.length = db.length := by
        simp only [cmpChunk_num_num, cmpNat_eq_eq.mpr hval] at hab
        exact cmpNat_eq_eq.mp hab
      cases c with
      | num dc => rw [cmpChunk_num_num, cmpChunk_num_num, hval, hlen]
      | str _ => rfl
    | str _ => simp [cmpChunk] at hab
  | str sa =>
    cases b with
    | num _ => simp [cmpChunk] at hab
    | str sb =>
      cases c with
      | num _ => rfl
      | str sc =>
        exact cmpListLex_eq_of_eq cmpNat_lawful (by simpa [cmpChunk] using hab) sc

theorem cmpChunk_lawful : LawfulCmp cmpChunk := by
  refine ⟨?_, ?_, cmpChunk_eq_congr⟩
  · intro a b
    cases a <;> cases b <;> simp only [cmpChunk]
    case num.num da db =>
      rw [cmpNat_lawful.swap (digitsVal da) (digitsVal db),
        cmpNat_lawful.swap da.length db.length]
      cases cmpNat (digitsVal db) (digitsVal da) <;> simp [Ordering.swap]
    case num.str => rfl
    case str.num => rfl
    case str.str sa sb => exact (cmpListLex_lawful cmpNat_lawful).swap sa sb
  · intro a b c hab hbc
    cases a <;> cases b <;> cases c <;> simp only [cmpChunk] at hab hbc ⊢
    all_goals try exact Ordering.noConfusion hab
    all_goals try exact Ordering.noConfusion hbc
    case num.num.num da db dc =>
      cases hv1 : cmpNat (digitsVal da) (digitsVal db) <;>
        cases hv2 : cmpNat (digitsVal db) (digitsVal dc) <;>
        simp only [hv1, hv2] at hab hbc <;>
        try exact Ordering.noConfusion hab
      all_goals try exact Ordering.noConfusion hbc
      · -- values lt, lt
        simp [cmpNat_eq_lt.mpr
          (Nat.lt_trans (cmpNat_eq_lt.mp hv1) (cmpNat_eq_lt.mp hv2))]
      · -- values lt, eq
        have hv : cmpNat (digitsVal da) (digitsVal dc) = .lt := by
          rw [← cmpNat_eq_eq.mp hv2]; exact hv1
        simp [hv]
      · -- values eq, lt
        have hv : cmpNat (digitsVal da) (digitsVal dc) = .lt := by
          rw [cmpNat_eq_eq.mp hv1]; exact hv2
        simp [hv]
      · -- values eq, eq: compare run lengths
        have hv : cmpNat (digitsVal da) (digitsVal dc) = .eq := by
          rw [cmpNat_eq_eq.mp hv1]; exact hv2
        simp [hv, cmpNat_eq_lt.mpr
          (Nat.lt_trans (cmpNat_eq_lt.mp hab) (cmpNat_eq_lt.mp hbc))]
    case str.str.str sa sb sc =>
      exact (cmpListLex_lawful cmpNat_lawful).lt_trans sa sb sc hab hbc

theorem LawfulCmp.comap {cmp : α → α → Ordering} (h : LawfulCmp cmp) (f : β → α) :
    LawfulCmp (fun a b => cmp (f a) (f b)) :=
  ⟨fun a b => h.swap (f a) (f b), fun a b c => h.lt_trans (f a) (f b) (f c),
   fun a b c => h.eq_congr (f a) (f b) (f c)⟩

theorem customFileNameSort_lawful : LawfulCmp customFileNameSort :=
  (cmpListLex_lawful cmpChunk_lawful).comap (fun s => chunksOf (codesOf s))

theorem LawfulCmp.leB_total {cmp : α → α → Ordering} (h : LawfulCmp cmp)
    (a b : α) : ordIsLE (cmp a b) = true ∨ ordIsLE (cmp b a) = true := by
  cases hab : cmp a b
  · exact Or.inl rfl
  · exact Or.inl rfl
  · have hs := h.swap a b
    rw [hab] at hs
    cases hba : cmp b a <;> rw [hba] at hs <;> simp only [Ordering.swap] at hs
    · exact Or.inr rfl
    · exact Ordering.noConfusion hs
    · exact Ordering.noConfusion hs

theorem LawfulCmp.leB_trans {cmp : α → α → Ordering} (h : LawfulCmp cmp)
    {a b c : α} (hab : ordIsLE (cmp a b) = true) (hbc : ordIsLE (cmp b c) = true) :
    ordIsLE (cmp a c) = true := by
  cases h1 : cmp a b <;> rw [h1] at hab
  · cases h2 : cmp b c <;> rw [h2] at hbc
    · rw [h.lt_trans a b c h1 h2]; rfl
    · have hcb : cmp c b = .eq := by
        have := h.swap b c; rw [h2] at this
        cases h3 : cmp c b <;> rw [h3] at this <;> simp_all [Ordering.swap]
      have : cmp a c = cmp a b := by
        have e1 := h.eq_congr c b a hcb
        have e2 := h.swap a c
        have e3 := h.swap a b
        rw [e2, e1, ← e3]
      rw [this, h1]; rfl
    · simp [ordIsLE] at hbc
  · rw [h.eq_congr a b c h1]; exact hbc
  · simp [ordIsLE] at hab

/-! ## Stable sort correctness -/

theorem insertSorted_perm (le : α → α → Bool) (a : α) (l : List α) :
    (insertSorted le a l).Perm (a :: l) := by
  induction l with
  | nil => exact List.Perm.refl _
  | cons b l ih =>
    simp only [insertSorted]
    split
    · exact List.Perm.refl _
    · exact (ih.cons b).trans (List.Perm.swap a b l)

theorem insertionSort_perm (le : α → α → Bool) (l : List α) :
    (insertionSort le l).Perm l := by
  induction l with
  | nil => exact List.Perm.refl _
  | cons a l ih =>
    exact (insertSorted_perm le a (insertionSort le l)).trans (ih.cons a)

theorem mem_insertSorted {le : α → α → Bool} {a x : α} {l : List α}
    (h : x ∈ insertSorted le a l) : x = a ∨ x ∈ l := by
  have := (insertSorted_perm le a l).mem_iff.mp h
  simpa using this

theorem insertSorted_pairwise {le : α → α → Bool}
    (htot : ∀ a b, le a b = true ∨ le b a = true)
    (htrans : ∀ a b c, le a b = true → le b c = true → le a c = true)
    {a : α} {l : List α} (h : l.Pairwise (le · · = true)) :
    (insertSorted le a l).Pairwise (le · · = true) := by
  induction l with
  | nil => simp [insertSorted]
  | cons b l ih =>
    rw [List.pairwise_cons] at h
    simp only [insertSorted]
    split
    · rename_i hab
      refine List.Pairwise.cons ?_ (List.Pairwise.cons h.1 h.2)
      intro x hx
      rcases List.mem_cons.mp hx with hxb | hx
      · subst hxb; exact hab
      · exact htrans a b x hab (h.1 x hx)
    · rename_i hab
      refine List.Pairwise.cons ?_ (ih h.2)
      intro x hx
      rcases mem_insertSorted hx with hxa | hx
      · rw [hxa]
        rcases htot a b with h1 | h1
        · exact absurd h1 hab
        · exact h1
      · exact h.1 x hx

theorem insertionSort_pairwise {le : α → α → Bool}
    (htot : ∀ a b, le a b = true ∨ le b a = true)
    (htrans : ∀ a b c, le a b = true → le b c = true → le a c = true)
    (l : List α) : (insertionSort le l).Pairwise (le · · = true) := by
  induction l with
  | nil => simp [insertionSort]
  | cons a l ih => exact insertSorted_pairwise htot htrans ih

/-! ## List and pairing utilities -/

theorem forall2_refl {R : α → α → Prop} (h : ∀ a, R a a) :
    ∀ l : List α, List.Forall₂ R l l
  | [] => List.Forall₂.nil
  | a :: l => List.Forall₂.cons (h a) (forall2_refl h l)

theorem forall2_refl_mem {R : α → α → Prop} :
    ∀ {l : List α}, (∀ a ∈ l, R a a) → List.Forall₂ R l l
  | [], _ => List.Forall₂.nil
  | a :: l, h =>
    List.Forall₂.cons (h a (List.mem_cons_self a l))
      (forall2_refl_mem (fun b hb => h b (List.mem_cons_of_mem a hb)))

theorem forall2_trans {R S T : α → α → Prop}
    (hRST : ∀ a b c, R a b → S b c → T a c) :
    ∀ {l1 l2 l3 : List α}, List.Forall₂ R l1 l2 → List.Forall₂ S l2 l3 →
      List.Forall₂ T l1 l3 := by
  intro l1 l2 l3 h12 h23
  induction h12 generalizing l3 with
  | nil => cases h23; exact List.Forall₂.nil
  | cons hab htail ih =>
    cases h23 with
    | cons hbc htail2 => exact List.Forall₂.cons (hRST _ _ _ hab hbc) (ih htail2)

theorem forall2_mem_left {R : α → β → Prop} {l : List α} {l' : List β}
    (h : List.Forall₂ R l l') {a : α} (ha : a ∈ l) : ∃ b ∈ l', R a b := by
  induction h with
  | nil => cases ha
  | cons hab htail ih =>
    rcases List.mem_cons.mp ha with rfl | ha
    · exact ⟨_, List.mem_cons_self _ _, hab⟩
    · rcases ih ha with ⟨b, hb, hr⟩
      exact ⟨b, List.mem_cons_of_mem _ hb, hr⟩

theorem forall2_mem_right {R : α → β → Prop} {l : List α} {l' : List β}
    (h : List.Forall₂ R l l') {b : β} (hb : b ∈ l') : ∃ a ∈ l, R a b := by
  induction h with
  | nil => cases hb
  | cons hab htail ih =>
    rcases List.mem_cons.mp hb with rfl | hb
    · exact ⟨_, List.mem_cons_self _ _, hab⟩
    · rcases ih hb with ⟨a, ha, hr⟩
      exact ⟨a, List.mem_cons_of_mem _ ha, hr⟩

theorem forall2_map_eq {R : α → α → Prop} {F : α → β}
    (hF : ∀ a b, R a b → F b = F a) :
    ∀ {l l' : List α}, List.Forall₂ R l l' → l'.map F = l.map F := by
  intro l l' h
  induction h with
  | nil => rfl
  | cons hab htail ih => simp [ih, hF _ _ hab]

/-! ## Soft-delete mark bookkeeping -/

theorem markFolder_mid (now : Nat) (f : FolderR) : (markFolder now f).mid = f.mid := rfl

theorem markFolder_name (now : Nat) (f : FolderR) : (markFolder now f).name = f.name := rfl

theorem markFolder_userId (now : Nat) (f : FolderR) :
    (markFolder now f).userId = f.userId := rfl

theorem markFolder_parentId (now : Nat) (f : FolderR) :
    (markFolder now f).parentId = f.parentId := rfl

theorem markFolder_isDeleted (now : Nat) (f : FolderR) :
    (markFolder now f).isDeleted = true := rfl

theorem markFolder_idem (now : Nat) (f : FolderR) :
    markFolder now (markFolder now f) = markFolder now f := rfl

theorem markFile_mid (now : Nat) (x : FileR) : (markFile now x).mid = x.mid := rfl

theorem markFile_userId (now : Nat) (x : FileR) : (markFile now x).userId = x.userId := rfl

theorem markFile_folderId (now : Nat) (x : FileR) :
    (markFile now x).folderId = x.folderId := rfl

theorem markFile_isDeleted (now : Nat) (x : FileR) :
    (markFile now x).isDeleted = true := rfl

theorem markFile_idem (now : Nat) (x : FileR) :
    markFile now (markFile now x) = markFile now x := rfl

theorem FolderEvo.live_folder {now : Nat} {f f' : FolderR} (h : FolderEvo now f f')
    (hl : f'.isDeleted = false) : f' = f := by
  rcases h with h | h
  · exact h
  · rw [h] at hl; exact absurd hl (by simp [markFolder])

theorem FileEvo.live_file {now : Nat} {x x' : FileR} (h : FileEvo now x x')
    (hl : x'.isDeleted = false) : x' = x := by
  rcases h with h | h
  · exact h
  · rw [h] at hl; exact absurd hl (by simp [markFile])

theorem FolderEvo.mid {now : Nat} {f f' : FolderR} (h : FolderEvo now f f') :
    f'.mid = f.mid := by
  rcases h with h | h <;> rw [h]
  rfl

theorem FolderEvo.userId {now : Nat} {f f' : FolderR} (h : FolderEvo now f f') :
    f'.userId = f.userId := by
  rcases h with h | h <;> rw [h]
  rfl

theorem FolderEvo.dead_folder {now : Nat} {f f' : FolderR} (h : FolderEvo now f f')
    (hd : f.isDeleted = true) : f'.isDeleted = true := by
  rcases h with h | h <;> rw [h]
  · exact hd
  · rfl

theorem FileEvo.dead_file {now : Nat} {x x' : FileR} (h : FileEvo now x x')
    (hd : x.isDeleted = true) : x'.isDeleted = true := by
  rcases h with h | h <;> rw [h]
  · exact hd
  · rfl

/-! ## updateFirst and updateMany pairings -/

theorem updateFirst_forall2 (p : α → Bool) (m : α → α) :
    ∀ l : List α, List.Forall₂ (fun a a' => a' = a ∨ (p a = true ∧ a' = m a))
      l (updateFirst p m l) := by
  intro l
  induction l with
  | nil => exact List.Forall₂.nil
  | cons a l ih =>
    simp only [updateFirst]
    split
    · rename_i hp
      exact List.Forall₂.cons (Or.inr ⟨hp, rfl⟩)
        (forall2_refl (R := fun a a' => a' = a ∨ (p a = true ∧ a' = m a))
          (fun _ => Or.inl rfl) l)
    · exact List.Forall₂.cons (Or.inl rfl) ih

theorem map_ite_forall2 (cond : α → Bool) (m : α → α) (l : List α) :
    List.Forall₂ (fun a a' => (cond a = true ∧ a' = m a) ∨ (cond a = false ∧ a' = a))
      l (l.map (fun a => if cond a then m a else a)) := by
  induction l with
  | nil => exact List.Forall₂.nil
  | cons a l ih =>
    simp only [List.map]
    refine List.Forall₂.cons ?_ ih
    by_cases h : cond a = true
    · rw [if_pos h]; exact Or.inl ⟨h, rfl⟩
    · rw [if_neg h]; exact Or.inr ⟨by simpa using h, rfl⟩

/-- `findOneAndUpdate` on the soft-delete filter, under unique ids and an
owned root id: the (unique) document with id `r` is marked, every other
document is untouched. -/
theorem updateFirst_mark_root (now : Nat) (u r : String) :
    ∀ l : List FolderR, (l.map FolderR.mid).Nodup →
      (∀ f ∈ l, f.mid = r → f.userId = u) →
      List.Forall₂
        (fun f f' => (¬(f.mid = r) ∧ f' = f) ∨ (f.mid = r ∧ f.userId = u ∧ f' = markFolder now f))
        l (updateFirst (fun f => f.mid == r && f.userId == u) (markFolder now) l) := by
  intro l
  induction l with
  | nil =>
    intro _ _
    exact List.Forall₂.nil
  | cons f l ih =>
    intro hnd hOwn
    simp only [List.map, List.nodup_cons] at hnd
    simp only [updateFirst]
    split
    · rename_i hp
      simp only [Bool.and_eq_true, beq_iff_eq] at hp
      refine List.Forall₂.cons (Or.inr ⟨hp.1, hp.2, rfl⟩) ?_
      refine forall2_refl_mem ?_
      intro g hg
      refine Or.inl ⟨?_, rfl⟩
      intro hgr
      have hmem : g.mid ∈ l.map FolderR.mid := List.mem_map_of_mem FolderR.mid hg
      rw [hgr, ← hp.1] at hmem
      exact hnd.1 hmem
    · rename_i hp
      by_cases hf : f.mid = r
      · exact absurd (by simp [hf, hOwn f (List.mem_cons_self _ _) hf]) hp
      · refine List.Forall₂.cons (Or.inl ⟨hf, rfl⟩) ?_
        exact ih hnd.2 (fun g hg hgr => hOwn g (List.mem_cons_of_mem _ hg) hgr)

/-! ## Reachability lemmas -/

theorem reachesLive_trans {db : DB} {u r q x : String}
    (h1 : ReachesLive db u r q) (h2 : ReachesLive db u q x) :
    ReachesLive db u r x := by
  induction h2 with
  | refl => exact h1
  | step hg hlive huser hpar _ ih => exact ReachesLive.step hg hlive huser hpar ih

theorem reachesLive_to_reaches {db : DB} {u r x : String}
    (h : ReachesLive db u r x) : Reaches db r x := by
  induction h with
  | refl => exact Reaches.refl
  | step hg _ _ hpar _ ih => exact Reaches.step hg hpar ih

/-- Chains of live folders survive backwards through an evolution: a folder
live in the later state is untouched, hence live with the same fields in the
earlier state. -/
theorem reachesLive_pullback {now : Nat} {db db1 : DB} {u r x : String}
    (hpair : List.Forall₂ (FolderEvo now) db.folders db1.folders)
    (h : ReachesLive db1 u r x) : ReachesLive db u r x := by
  induction h with
  | refl => exact ReachesLive.refl
  | @step g p hg hlive huser hpar _ ih =>
    rcases forall2_mem_right hpair hg with ⟨g0, hg0, hevo⟩
    have hgg : g = g0 := hevo.live_folder hlive
    subst hgg
    exact ReachesLive.step hg0 hlive huser hpar ih

/-- Decompose a live-reachability derivation at its first step below the
root: either the target is the root itself, or some live child of the root
(with a different id) reaches it. -/
theorem reachesLive_firstStep {db : DB} {u r x : String}
    (h : ReachesLive db u r x) :
    x = r ∨ ∃ c ∈ db.folders, c.isDeleted = false ∧ c.userId = u ∧
      c.parentId = some r ∧ ¬(c.mid = r) ∧ ReachesLive db u c.mid x := by
  induction h with
  | refl => exact Or.inl rfl
  | @step g p hg hlive huser hpar _ ih =>
    rcases ih with hpr | ⟨c, hc, hcl, hcu, hcp, hcr, hcx⟩
    · by_cases hgr : g.mid = r
      · exact Or.inl hgr
      · refine Or.inr ⟨g, hg, hlive, huser, ?_, hgr, ReachesLive.refl⟩
        rw [hpar, hpr]
    · exact Or.inr ⟨c, hc, hcl, hcu, hcp, hcr,
        reachesLive_trans hcx (ReachesLive.step hg hlive huser hpar ReachesLive.refl)⟩

/-- Transport a live-reachability derivation across an evolution that only
marked documents satisfying `T`: either the chain survives, or it ran
through a marked document, which was then `T` and reachable from the same
root. -/
theorem reachesLive_comp {now : Nat} {db db1 : DB} {u r : String}
    {T : FolderR → Prop}
    (hpair : List.Forall₂ (fun f f' => f' = f ∨ (f' = markFolder now f ∧ T f))
      db.folders db1.folders)
    {x : String} (h : ReachesLive db u r x) :
    ReachesLive db1 u r x ∨
      ∃ g ∈ db.folders, T g ∧ ReachesLive db u g.mid x := by
  induction h with
  | refl => exact Or.inl ReachesLive.refl
  | @step g p hg hlive huser hpar _ ih =>
    rcases forall2_mem_left hpair hg with ⟨g1, hg1, hrel⟩
    rcases hrel with hsame | ⟨hmark, hT⟩
    · rcases ih with h1 | ⟨g0, hg0, hT0, h0⟩
      · refine Or.inl ?_
        have : ReachesLive db1 u r g1.mid := by
          refine ReachesLive.step hg1 ?_ ?_ ?_ h1 <;> rw [hsame]
          · exact hlive
          · exact huser
          · exact hpar
        rwa [hsame] at this
      · exact Or.inr ⟨g0, hg0, hT0,
          reachesLive_trans h0 (ReachesLive.step hg hlive huser hpar ReachesLive.refl)⟩
    · rcases ih with h1 | ⟨g0, hg0, hT0, h0⟩
      · exact Or.inr ⟨g, hg, hT, ReachesLive.refl⟩
      · exact Or.inr ⟨g0, hg0, hT0,
          reachesLive_trans h0 (ReachesLive.step hg hlive huser hpar ReachesLive.refl)⟩

/-- Transport a live-reachability derivation across the root-marking step:
only the root document changed, so every chain either survives or collapses
to the root itself. -/
theorem reachesLive_push {now : Nat} {db db1 : DB} {u r : String}
    (hpair : List.Forall₂ (fun f f' => (¬(f.mid = r) ∧ f' = f) ∨ (f.mid = r ∧ f' = markFolder now f))
      db.folders db1.folders)
    {x : String} (h : ReachesLive db u r x) :
    x = r ∨ ReachesLive db1 u r x := by
  induction h with
  | refl => exact Or.inl rfl
  | @step g p hg hlive huser hpar _ ih =>
    by_cases hgr : g.mid = r
    · exact Or.inl hgr
    · rcases forall2_mem_left hpair hg with ⟨g1, hg1, hrel⟩
      rcases hrel with ⟨_, hsame⟩ | ⟨hmid, _⟩
      · refine Or.inr ?_
        have hbase : ReachesLive db1 u r p := by
          rcases ih with hpr | h1
          · rw [hpr]; exact ReachesLive.refl
          · exact h1
        have hstep : ReachesLive db1 u r g1.mid := by
          refine ReachesLive.step hg1 ?_ ?_ ?_ hbase <;> rw [hsame]
          · exact hlive
          · exact huser
          · exact hpar
        rwa [hsame] at hstep
      · exact absurd hmid hgr

/-! ## The cascade fold -/

theorem foldl_cascadeStep_false (go : String → DB → Bool × DB) :
    ∀ (S : List String) (acc : Bool × DB), acc.1 = false →
      S.foldl (cascadeStep go) acc = acc := by
  intro S
  induction S with
  | nil => intro acc _; rfl
  | cons c S ih =>
    intro acc h
    have hstep : cascadeStep go acc c = acc := by simp [cascadeStep, h]
    rw [List.foldl_cons, hstep, ih acc h]

theorem FolderRel.evo {u : String} {now : Nat} {db : DB} {r : String} {ok : Bool}
    {f f' : FolderR} (h : FolderRel u now db r ok f f') : FolderEvo now f f' :=
  h.1.imp id And.left

theorem FileEvo.of_fileRel {u : String} {now : Nat} {db : DB} {r : String} {ok : Bool}
    {x x' : FileR} (h : FileRel u now db r ok x x') : FileEvo now x x' :=
  h.1.imp id And.left

theorem nodup_mid_of_evo {now : Nat} {F F' : List FolderR}
    (h : List.Forall₂ (FolderEvo now) F F') (hnd : (F.map FolderR.mid).Nodup) :
    (F'.map FolderR.mid).Nodup := by
  rw [forall2_map_eq (fun a b hab => hab.mid) h]
  exact hnd

theorem ownRoot_of_evo {now : Nat} {u c : String} {db db1 : DB}
    (h : List.Forall₂ (FolderEvo now) db.folders db1.folders)
    (ho : OwnRoot db u c) : OwnRoot db1 u c := by
  intro f' hf' hmid
  rcases forall2_mem_right h hf' with ⟨f, hf, hevo⟩
  rw [hevo.userId]
  exact ho f hf (by rw [← hevo.mid]; exact hmid)

theorem FoldFolderRel.dead_fold {u : String} {now : Nat} {db : DB} {S : List String}
    {ok : Bool} {f f' : FolderR} (h : FoldFolderRel u now db S ok f f')
    (hd : f.isDeleted = true) : f'.isDeleted = true := by
  rcases h.1 with he | ⟨hm, _⟩
  · rw [he]; exact hd
  · rw [hm]; rfl

theorem FoldFileRel.dead_fold_file {u : String} {now : Nat} {db : DB} {S : List String}
    {ok : Bool} {x x' : FileR} (h : FoldFileRel u now db S ok x x')
    (hd : x.isDeleted = true) : x'.isDeleted = true := by
  rcases h.1 with he | ⟨hm, _⟩
  · rw [he]; exact hd
  · rw [hm]; rfl

/-- Compose one cascade call with a fold over later roots (folder side). -/
theorem fold_combine_folder {u : String} {now : Nat} {db db1 : DB} {c : String}
    {S : List String} {okS : Bool}
    (hpairT : List.Forall₂
      (fun f f1 => f1 = f ∨ (f1 = markFolder now f ∧ f.userId = u ∧ ReachesLive db u c f.mid))
      db.folders db1.folders) :
    ∀ f f1 f', FolderRel u now db c true f f1 → FoldFolderRel u now db1 S okS f1 f' →
      FoldFolderRel u now db (c :: S) okS f f' := by
  intro f f1 f' h1 h2
  have hevo : List.Forall₂ (FolderEvo now) db.folders db1.folders :=
    List.Forall₂.imp (fun a b h => h.imp id And.left) hpairT
  constructor
  · rcases h1.1 with he1 | ⟨hm1, hu1, hr1⟩
    · rcases h2.1 with he2 | ⟨hm2, hu2, hex⟩
      · exact Or.inl (he2.trans he1)
      · rcases hex with ⟨c2, hc2, hr2⟩
        refine Or.inr ⟨by rw [hm2, he1], by rw [he1] at hu2; exact hu2,
          c2, List.mem_cons_of_mem _ hc2, ?_⟩
        have hp := reachesLive_pullback hevo hr2
        rw [he1] at hp
        exact hp
    · rcases h2.1 with he2 | ⟨hm2, _⟩
      · exact Or.inr ⟨by rw [he2, hm1], hu1, c, List.mem_cons_self _ _, hr1⟩
      · exact Or.inr ⟨by rw [hm2, hm1, markFolder_idem], hu1, c,
          List.mem_cons_self _ _, hr1⟩
  · intro hok c0 hc0 hreach
    have hmid : f1.mid = f.mid := h1.evo.mid
    rcases List.mem_cons.mp hc0 with rfl | hc0S
    · exact h2.dead_fold (h1.2 rfl hreach)
    · rcases reachesLive_comp (T := fun g => g.userId = u ∧ ReachesLive db u c g.mid)
        hpairT hreach with h1r | ⟨g, _, ⟨_, hgr⟩, hgx⟩
      · exact h2.2 hok c0 hc0S (by rw [hmid]; exact h1r)
      · exact h2.dead_fold (h1.2 rfl (reachesLive_trans hgr hgx))

/-- Compose one cascade call with a fold over later roots (file side). -/
theorem fold_combine_file {u : String} {now : Nat} {db db1 : DB} {c : String}
    {S : List String} {okS : Bool}
    (hpairT : List.Forall₂
      (fun f f1 => f1 = f ∨ (f1 = markFolder now f ∧ f.userId = u ∧ ReachesLive db u c f.mid))
      db.folders db1.folders) :
    ∀ x x1 x', FileRel u now db c true x x1 → FoldFileRel u now db1 S okS x1 x' →
      FoldFileRel u now db (c :: S) okS x x' := by
  intro x x1 x' h1 h2
  have hevo : List.Forall₂ (FolderEvo now) db.folders db1.folders :=
    List.Forall₂.imp (fun a b h => h.imp id And.left) hpairT
  constructor
  · rcases h1.1 with he1 | ⟨hm1, hl1, hu1, p, hp1, hr1⟩
    · rcases h2.1 with he2 | ⟨hm2, hl2, hu2, hex⟩
      · exact Or.inl (he2.trans he1)
      · rcases hex with ⟨p, hp2, c2, hc2, hr2⟩
        refine Or.inr ⟨by rw [hm2, he1], by rw [he1] at hl2; exact hl2,
          by rw [he1] at hu2; exact hu2, p, by rw [he1] at hp2; exact hp2,
          c2, List.mem_cons_of_mem _ hc2, reachesLive_pullback hevo hr2⟩
    · rcases h2.1 with he2 | ⟨hm2, _⟩
      · exact Or.inr ⟨by rw [he2, hm1], hl1, hu1, p, hp1, c,
          List.mem_cons_self _ _, hr1⟩
      · exact Or.inr ⟨by rw [hm2, hm1, markFile_idem], hl1, hu1, p, hp1, c,
          List.mem_cons_self _ _, hr1⟩
  · intro hok hlive hxu p hfid c0 hc0 hreach
    rcases List.mem_cons.mp hc0 with rfl | hc0S
    · exact h2.dead_fold_file (h1.2 rfl hlive hxu p hfid hreach)
    · rcases reachesLive_comp (T := fun g => g.userId = u ∧ ReachesLive db u c g.mid)
        hpairT hreach with h1r | ⟨g, _, ⟨_, hgr⟩, hgx⟩
      · rcases h1.1 with he1 | ⟨hm1, _⟩
        · refine h2.2 hok ?_ ?_ p ?_ c0 hc0S h1r <;> rw [he1]
          · exact hlive
          · exact hxu
          · exact hfid
        · exact h2.dead_fold_file (by rw [hm1]; rfl)
      · exact h2.dead_fold_file (h1.2 rfl hlive hxu p hfid (reachesLive_trans hgr hgx))

/-- The fold of cascade calls over a list of roots satisfies the folded
contract, provided each call satisfies `CascadeSpec`. -/
theorem foldl_cascade_master {u : String} {now : Nat} {go : String → DB → Bool × DB}
    (hgo : CascadeSpec u now go) :
    ∀ (S : List String) (db : DB), (db.folders.map FolderR.mid).Nodup →
      (∀ c ∈ S, OwnRoot db u c) →
      List.Forall₂ (FoldFolderRel u now db S (S.foldl (cascadeStep go) (true, db)).1)
        db.folders (S.foldl (cascadeStep go) (true, db)).2.folders ∧
      List.Forall₂ (FoldFileRel u now db S (S.foldl (cascadeStep go) (true, db)).1)
        db.files (S.foldl (cascadeStep go) (true, db)).2.files := by
  intro S
  induction S with
  | nil =>
    intro db _ _
    constructor
    · exact forall2_refl
        (fun f => ⟨Or.inl rfl, fun _ c hc => absurd hc (List.not_mem_nil c)⟩) _
    · exact forall2_refl
        (fun x => ⟨Or.inl rfl, fun _ _ _ p _ c hc => absurd hc (List.not_mem_nil c)⟩) _
  | cons c S ih =>
    intro db hnd hOwn
    have hspec := hgo c db hnd (hOwn c (List.mem_cons_self _ _))
    have hstep0 : cascadeStep go (true, db) c = go c db := rfl
    by_cases hflag : (go c db).1 = true
    · have hpr : go c db = (true, (go c db).2) := by
        have h := (Prod.mk.eta (p := go c db)).symm
        rw [hflag] at h
        exact h
      have hres : (c :: S).foldl (cascadeStep go) (true, db)
          = S.foldl (cascadeStep go) (true, (go c db).2) := by
        rw [List.foldl_cons, hstep0, ← hpr]
      rw [hflag] at hspec
      have hevo : List.Forall₂ (FolderEvo now) db.folders (go c db).2.folders :=
        List.Forall₂.imp (fun a b h => h.evo) hspec.1
      have hnd1 : ((go c db).2.folders.map FolderR.mid).Nodup := nodup_mid_of_evo hevo hnd
      have hOwn1 : ∀ c2 ∈ S, OwnRoot (go c db).2 u c2 := fun c2 hc2 =>
        ownRoot_of_evo hevo (hOwn c2 (List.mem_cons_of_mem _ hc2))
      have ihS := ih (go c db).2 hnd1 hOwn1
      have hpairT : List.Forall₂
          (fun f f1 => f1 = f ∨ (f1 = markFolder now f ∧ f.userId = u ∧ ReachesLive db u c f.mid))
          db.folders (go c db).2.folders :=
        List.Forall₂.imp (fun a b h => h.1) hspec.1
      rw [hres]
      exact ⟨forall2_trans (fold_combine_folder hpairT) hspec.1 ihS.1,
        forall2_trans (fold_combine_file hpairT) hspec.2 ihS.2⟩
    · have hflag2 : (go c db).1 = false := by
        cases h : (go c db).1
        · rfl
        · exact absurd h hflag
      have hres : (c :: S).foldl (cascadeStep go) (true, db) = go c db := by
        rw [List.foldl_cons, hstep0, foldl_cascadeStep_false go S _ hflag2]
      rw [hres]
      constructor
      · refine List.Forall₂.imp ?_ hspec.1
        intro f f' h
        exact ⟨h.1.imp id (fun hh => ⟨hh.1, hh.2.1, c, List.mem_cons_self _ _, hh.2.2⟩),
          fun hok => absurd hok (by rw [hflag2]; exact Bool.false_ne_true)⟩
      · refine List.Forall₂.imp ?_ hspec.2
        intro x x' h
        refine ⟨h.1.imp id ?_, fun hok => absurd hok (by rw [hflag2]; exact Bool.false_ne_true)⟩
        intro hh
        rcases hh with ⟨hm, hl, hu, p, hp, hr⟩
        exact ⟨hm, hl, hu, p, hp, c, List.mem_cons_self _ _, hr⟩

/-! ## The master contract of the recursive cascade -/

theorem cascade_succ_eq (n : Nat) (r u : String) (now : Nat) (db : DB) :
    softDeleteFolderRecursive (Nat.succ n) r u now db =
      (((DB.mk
          (updateFirst (fun f => f.mid == r && f.userId == u) (markFolder now) db.folders)
          (db.files.map (fun x =>
            if x.folderId == some r && x.userId == u && x.isDeleted == false
            then markFile now x else x))).folders.filter
          (fun f => f.parentId == some r && f.userId == u && f.isDeleted == false)).map
          FolderR.mid).foldl
        (cascadeStep (fun c db2 => softDeleteFolderRecursive n c u now db2))
        (true, DB.mk
          (updateFirst (fun f => f.mid == r && f.userId == u) (markFolder now) db.folders)
          (db.files.map (fun x =>
            if x.folderId == some r && x.userId == u && x.isDeleted == false
            then markFile now x else x))) := rfl

theorem nodup_map_inj {l : List α} {F : α → β} (hnd : (l.map F).Nodup)
    {a b : α} (ha : a ∈ l) (hb : b ∈ l) (hab : F a = F b) : a = b :=
  List.inj_on_of_nodup_map hnd ha hb hab

/-- Compose the root-marking and file-marking steps with the fold over the
live children (folder side). -/
theorem master_combine_folder {u : String} {now : Nat} {db dbB : DB} {c : String}
    {subs : List String} {okRes : Bool}
    (hA : List.Forall₂
      (fun f f' => (¬(f.mid = c) ∧ f' = f) ∨ (f.mid = c ∧ f.userId = u ∧ f' = markFolder now f))
      db.folders dbB.folders)
    (hsubDB : ∀ c2 ∈ subs, ReachesLive db u c c2)
    (hmemsubs : ∀ g ∈ dbB.folders, g.isDeleted = false → g.userId = u →
      g.parentId = some c → g.mid ∈ subs) :
    ∀ f fB f',
      ((¬(f.mid = c) ∧ fB = f) ∨ (f.mid = c ∧ f.userId = u ∧ fB = markFolder now f)) →
      FoldFolderRel u now dbB subs okRes fB f' → FolderRel u now db c okRes f f' := by
  have hApush : List.Forall₂
      (fun f f' => (¬(f.mid = c) ∧ f' = f) ∨ (f.mid = c ∧ f' = markFolder now f))
      db.folders dbB.folders :=
    List.Forall₂.imp (fun a b h => h.imp id (fun hh => ⟨hh.1, hh.2.2⟩)) hA
  have hevoA : List.Forall₂ (FolderEvo now) db.folders dbB.folders :=
    List.Forall₂.imp (fun a b h => h.elim (fun hh => Or.inl hh.2) (fun hh => Or.inr hh.2.2)) hA
  intro f fB f' h1 h2
  have hmidB : fB.mid = f.mid := by
    rcases h1 with ⟨_, he⟩ | ⟨_, _, hm⟩
    · rw [he]
    · rw [hm]; rfl
  constructor
  · rcases h1 with ⟨hnc, he1⟩ | ⟨hc1, hu1, hm1⟩
    · rcases h2.1 with he2 | ⟨hm2, hu2, hex⟩
      · exact Or.inl (he2.trans he1)
      · rcases hex with ⟨c2, hc2, hr2⟩
        refine Or.inr ⟨by rw [hm2, he1], by rw [he1] at hu2; exact hu2, ?_⟩
        have hpull := reachesLive_pullback hevoA hr2
        rw [hmidB] at hpull
        exact reachesLive_trans (hsubDB c2 hc2) hpull
    · rcases h2.1 with he2 | ⟨hm2, _⟩
      · exact Or.inr ⟨by rw [he2, hm1], hu1, by rw [hc1]; exact ReachesLive.refl⟩
      · exact Or.inr ⟨by rw [hm2, hm1, markFolder_idem], hu1,
          by rw [hc1]; exact ReachesLive.refl⟩
  · intro hok hreach
    have hdeadc : f.mid = c → f'.isDeleted = true := by
      intro hmc
      rcases h1 with ⟨hnc, _⟩ | ⟨_, _, hm1⟩
      · exact absurd hmc hnc
      · exact h2.dead_fold (by rw [hm1]; rfl)
    rcases reachesLive_push hApush hreach with hmc | hBreach
    · exact hdeadc hmc
    · rcases reachesLive_firstStep hBreach with hmc | ⟨crec, hcrec, hcl, hcu, hcp, _, hcx⟩
      · exact hdeadc hmc
      · exact h2.2 hok crec.mid (hmemsubs crec hcrec hcl hcu hcp) (by rw [hmidB]; exact hcx)

/-- Compose the root-marking and file-marking steps with the fold over the
live children (file side). -/
theorem master_combine_file {u : String} {now : Nat} {db dbB : DB} {c : String}
    {subs : List String} {okRes : Bool}
    (hA : List.Forall₂
      (fun f f' => (¬(f.mid = c) ∧ f' = f) ∨ (f.mid = c ∧ f.userId = u ∧ f' = markFolder now f))
      db.folders dbB.folders)
    (hsubDB : ∀ c2 ∈ subs, ReachesLive db u c c2)
    (hmemsubs : ∀ g ∈ dbB.folders, g.isDeleted = false → g.userId = u →
      g.parentId = some c → g.mid ∈ subs) :
    ∀ x xB x',
      (((x.folderId == some c && x.userId == u && x.isDeleted == false) = true ∧
          xB = markFile now x) ∨
        ((x.folderId == some c && x.userId == u && x.isDeleted == false) = false ∧ xB = x)) →
      FoldFileRel u now dbB subs okRes xB x' → FileRel u now db c okRes x x' := by
  have hApush : List.Forall₂
      (fun f f' => (¬(f.mid = c) ∧ f' = f) ∨ (f.mid = c ∧ f' = markFolder now f))
      db.folders dbB.folders :=
    List.Forall₂.imp (fun a b h => h.imp id (fun hh => ⟨hh.1, hh.2.2⟩)) hA
  have hevoA : List.Forall₂ (FolderEvo now) db.folders dbB.folders :=
    List.Forall₂.imp (fun a b h => h.elim (fun hh => Or.inl hh.2) (fun hh => Or.inr hh.2.2)) hA
  intro x xB x' h1 h2
  constructor
  · rcases h1 with ⟨hcond, hm1⟩ | ⟨_, he1⟩
    · simp only [Bool.and_eq_true, beq_iff_eq] at hcond
      rcases h2.1 with he2 | ⟨hm2, _⟩
      · exact Or.inr ⟨by rw [he2, hm1], hcond.2, hcond.1.2, c, hcond.1.1, ReachesLive.refl⟩
      · exact Or.inr ⟨by rw [hm2, hm1, markFile_idem], hcond.2, hcond.1.2, c,
          hcond.1.1, ReachesLive.refl⟩
    · rcases h2.1 with he2 | ⟨hm2, hl2, hu2, hex⟩
      · exact Or.inl (he2.trans he1)
      · rcases hex with ⟨p, hp2, c2, hc2, hr2⟩
        refine Or.inr ⟨by rw [hm2, he1], by rw [he1] at hl2; exact hl2,
          by rw [he1] at hu2; exact hu2, p, by rw [he1] at hp2; exact hp2,
          reachesLive_trans (hsubDB c2 hc2) (reachesLive_pullback hevoA hr2)⟩
  · intro hok hlive hxu p hfid hreach
    have hdeadc : p = c → x'.isDeleted = true := by
      intro hpc
      rcases h1 with ⟨_, hm1⟩ | ⟨hcf, _⟩
      · exact h2.dead_fold_file (by rw [hm1]; rfl)
      · rw [hpc] at hfid
        rw [show (x.folderId == some c && x.userId == u && x.isDeleted == false) = true
          from by simp [hfid, hxu, hlive]] at hcf
        exact absurd hcf (by simp)
    rcases reachesLive_push hApush hreach with hpc | hBreach
    · exact hdeadc hpc
    · rcases reachesLive_firstStep hBreach with hpc | ⟨crec, hcrec, hcl, hcu, hcp, _, hcx⟩
      · exact hdeadc hpc
      · rcases h1 with ⟨_, hm1⟩ | ⟨_, he1⟩
        · exact h2.dead_fold_file (by rw [hm1]; rfl)
        · refine h2.2 hok ?_ ?_ p ?_ crec.mid (hmemsubs crec hcrec hcl hcu hcp) hcx <;>
            rw [he1]
          · exact hlive
          · exact hxu
          · exact hfid

/-- One step of the master induction: the contract at fuel `n` yields the
contract at fuel `n + 1`. -/
theorem cascade_master_step {u : String} {now : Nat} {n : Nat}
    (ih : CascadeSpec u now (fun r db2 => softDeleteFolderRecursive n r u now db2)) :
    CascadeSpec u now (fun r db2 => softDeleteFolderRecursive (Nat.succ n) r u now db2) := by
  intro c db hnd hOwn
  show List.Forall₂ (FolderRel u now db c (softDeleteFolderRecursive (Nat.succ n) c u now db).1)
      db.folders (softDeleteFolderRecursive (Nat.succ n) c u now db).2.folders ∧
    List.Forall₂ (FileRel u now db c (softDeleteFolderRecursive (Nat.succ n) c u now db).1)
      db.files (softDeleteFolderRecursive (Nat.succ n) c u now db).2.files
  rw [cascade_succ_eq]
  set FB : List FolderR :=
    updateFirst (fun f => f.mid == c && f.userId == u) (markFolder now) db.folders with hFB
  set XB : List FileR := db.files.map (fun x =>
    if x.folderId == some c && x.userId == u && x.isDeleted == false
    then markFile now x else x) with hXB
  set subs : List String := ((DB.mk FB XB).folders.filter
    (fun f => f.parentId == some c && f.userId == u && f.isDeleted == false)).map
    FolderR.mid with hsubs
  have hA : List.Forall₂
      (fun f f' => (¬(f.mid = c) ∧ f' = f) ∨ (f.mid = c ∧ f.userId = u ∧ f' = markFolder now f))
      db.folders (DB.mk FB XB).folders := by
    rw [hFB]
    exact updateFirst_mark_root now u c db.folders hnd hOwn
  have hB : List.Forall₂ (fun x x' =>
      ((x.folderId == some c && x.userId == u && x.isDeleted == false) = true ∧
        x' = markFile now x) ∨
      ((x.folderId == some c && x.userId == u && x.isDeleted == false) = false ∧ x' = x))
      db.files (DB.mk FB XB).files := by
    rw [hXB]
    exact map_ite_forall2 _ _ _
  have hevoA : List.Forall₂ (FolderEvo now) db.folders (DB.mk FB XB).folders :=
    List.Forall₂.imp (fun a b h => h.elim (fun hh => Or.inl hh.2) (fun hh => Or.inr hh.2.2)) hA
  have hndB : ((DB.mk FB XB).folders.map FolderR.mid).Nodup := nodup_mid_of_evo hevoA hnd
  have hsubB : ∀ c2 ∈ subs, ∃ g ∈ (DB.mk FB XB).folders,
      g.mid = c2 ∧ g.isDeleted = false ∧ g.userId = u ∧ g.parentId = some c := by
    intro c2 hc2
    rw [hsubs] at hc2
    rcases List.mem_map.mp hc2 with ⟨g, hgmem, rfl⟩
    rcases List.mem_filter.mp hgmem with ⟨hgF, hgpred⟩
    simp only [Bool.and_eq_true, beq_iff_eq] at hgpred
    exact ⟨g, hgF, rfl, hgpred.2, hgpred.1.2, hgpred.1.1⟩
  have hOwnB : ∀ c2 ∈ subs, OwnRoot (DB.mk FB XB) u c2 := by
    intro c2 hc2 f hf hfmid
    rcases hsubB c2 hc2 with ⟨g, hgF, hgmid, _, hgu, _⟩
    have hfg : f = g := nodup_map_inj hndB hf hgF (by rw [hfmid, hgmid])
    rw [hfg]
    exact hgu
  have hsubDB : ∀ c2 ∈ subs, ReachesLive db u c c2 := by
    intro c2 hc2
    rcases hsubB c2 hc2 with ⟨g, hgF, hgmid, hgl, hgu, hgp⟩
    rcases forall2_mem_right hA hgF with ⟨g0, hg0, hrel⟩
    rcases hrel with ⟨_, hsame⟩ | ⟨_, _, hmark⟩
    · rw [hsame] at hgmid hgl hgu hgp
      rw [← hgmid]
      exact ReachesLive.step hg0 hgl hgu hgp ReachesLive.refl
    · rw [hmark] at hgl
      exact absurd hgl (by simp [markFolder])
  have hmemsubs : ∀ g ∈ (DB.mk FB XB).folders, g.isDeleted = false → g.userId = u →
      g.parentId = some c → g.mid ∈ subs := by
    intro g hg hgl hgu hgp
    rw [hsubs]
    refine List.mem_map_of_mem _ (List.mem_filter.mpr ⟨hg, ?_⟩)
    simp [hgp, hgu, hgl]
  have hfold := foldl_cascade_master ih subs (DB.mk FB XB) hndB hOwnB
  exact ⟨forall2_trans (master_combine_folder hA hsubDB hmemsubs) hA hfold.1,
    forall2_trans (master_combine_file hA hsubDB hmemsubs) hB hfold.2⟩

/-- The full contract of `softDeleteFolderRecursive` at every fuel level:
pointwise evolution with touch bound, and completeness on success. -/
theorem cascade_master (u : String) (now : Nat) :
    ∀ n : Nat, CascadeSpec u now (fun r db2 => softDeleteFolderRecursive n r u now db2) := by
  intro n
  induction n with
  | zero =>
    intro c db _ _
    exact ⟨forall2_refl (fun f =>
        ⟨Or.inl rfl, fun hok => absurd hok Bool.false_ne_true⟩) _,
      forall2_refl (fun x =>
        ⟨Or.inl rfl, fun hok => absurd hok Bool.false_ne_true⟩) _⟩
  | succ n ih => exact cascade_master_step ih

/-! ## Evolution-only facts and termination of the cascade -/

theorem folderEvo_trans {now : Nat} {f f1 f' : FolderR}
    (h1 : FolderEvo now f f1) (h2 : FolderEvo now f1 f') : FolderEvo now f f' := by
  rcases h1 with h1 | h1 <;> rcases h2 with h2 | h2 <;> rw [h2, h1]
  · exact Or.inl rfl
  · exact Or.inr rfl
  · exact Or.inr rfl
  · exact Or.inr (markFolder_idem now f)

theorem fileEvo_trans {now : Nat} {x x1 x' : FileR}
    (h1 : FileEvo now x x1) (h2 : FileEvo now x1 x') : FileEvo now x x' := by
  rcases h1 with h1 | h1 <;> rcases h2 with h2 | h2 <;> rw [h2, h1]
  · exact Or.inl rfl
  · exact Or.inr rfl
  · exact Or.inr rfl
  · exact Or.inr (markFile_idem now x)

theorem dbEvo_refl (now : Nat) (db : DB) : DBEvo now db db :=
  ⟨forall2_refl (R := FolderEvo now) (fun _ => Or.inl rfl) _,
   forall2_refl (R := FileEvo now) (fun _ => Or.inl rfl) _⟩

theorem dbEvo_trans {now : Nat} {db db1 db2 : DB}
    (h1 : DBEvo now db db1) (h2 : DBEvo now db1 db2) : DBEvo now db db2 :=
  ⟨forall2_trans (R := FolderEvo now) (S := FolderEvo now) (T := FolderEvo now)
      (fun _ _ _ hab hbc => folderEvo_trans hab hbc) h1.1 h2.1,
   forall2_trans (R := FileEvo now) (S := FileEvo now) (T := FileEvo now)
      (fun _ _ _ hab hbc => fileEvo_trans hab hbc) h1.2 h2.2⟩

theorem foldl_cascade_evolves {now : Nat} {go : String → DB → Bool × DB}
    (hgo : ∀ c db, DBEvo now db (go c db).2) :
    ∀ (S : List String) (b : Bool) (db : DB),
      DBEvo now db (S.foldl (cascadeStep go) (b, db)).2 := by
  intro S
  induction S with
  | nil => intro b db; exact dbEvo_refl now db
  | cons c S ih =>
    intro b db
    rw [List.foldl_cons]
    cases b with
    | false =>
      have hstep : cascadeStep go (false, db) c = (false, db) := rfl
      rw [hstep]
      exact ih false db
    | true =>
      have hstep : cascadeStep go (true, db) c = go c db := rfl
      rw [hstep]
      have h1 : DBEvo now db (go c db).2 := hgo c db
      have h2 : DBEvo now (go c db).2
          (S.foldl (cascadeStep go) ((go c db).1, (go c db).2)).2 := by
        cases hfl : (go c db).1
        · rw [foldl_cascadeStep_false go S _ rfl]
          exact dbEvo_refl now _
        · exact ih true (go c db).2
      rw [show ((go c db).1, (go c db).2) = go c db from Prod.mk.eta] at h2
      exact dbEvo_trans h1 h2

theorem cascade_evolves (u : String) (now : Nat) :
    ∀ (n : Nat) (r : String) (db : DB),
      DBEvo now db (softDeleteFolderRecursive n r u now db).2 := by
  intro n
  induction n with
  | zero => intro r db; exact dbEvo_refl now db
  | succ n ih =>
    intro r db
    rw [cascade_succ_eq]
    have hAB : DBEvo now db (DB.mk
        (updateFirst (fun f => f.mid == r && f.userId == u) (markFolder now) db.folders)
        (db.files.map (fun x =>
          if x.folderId == some r && x.userId == u && x.isDeleted == false
          then markFile now x else x))) := by
      constructor
      · exact List.Forall₂.imp (fun a b h => h.imp id And.right)
          (updateFirst_forall2 (fun f => f.mid == r && f.userId == u) (markFolder now)
            db.folders)
      · exact List.Forall₂.imp
          (fun a b h => h.elim (fun hh => Or.inr hh.2) (fun hh => Or.inl hh.2))
          (map_ite_forall2
            (fun x => x.folderId == some r && x.userId == u && x.isDeleted == false)
            (markFile now) db.files)
    exact dbEvo_trans hAB (foldl_cascade_evolves (fun c db2 => ih c db2) _ true _)

theorem liveChain_pullback {now : Nat} {db dbX : DB} {u : String}
    (hevo : List.Forall₂ (FolderEvo now) db.folders dbX.folders) :
    ∀ {r : String} {l : List String}, LiveChain dbX u r l → LiveChain db u r l := by
  intro r l h
  induction h with
  | nil => exact LiveChain.nil
  | @cons root g l hg hgl hgu hgp _ ih =>
    rcases forall2_mem_right hevo hg with ⟨g0, hg0, hevo0⟩
    have hgg : g = g0 := hevo0.live_folder hgl
    subst hgg
    exact LiveChain.cons hg0 hgl hgu hgp ih

theorem foldl_cascade_flag {go : String → DB → Bool × DB} (P : DB → Prop) :
    ∀ S : List String, (∀ c ∈ S, ∀ dbX, P dbX → (go c dbX).1 = true ∧ P (go c dbX).2) →
      ∀ db, P db → (S.foldl (cascadeStep go) (true, db)).1 = true ∧
        P (S.foldl (cascadeStep go) (true, db)).2 := by
  intro S
  induction S with
  | nil => intro _ db hP; exact ⟨rfl, hP⟩
  | cons c S ih =>
    intro hgo db hP
    rw [List.foldl_cons]
    have hstep : cascadeStep go (true, db) c = go c db := rfl
    rw [hstep]
    have h1 := hgo c (List.mem_cons_self _ _) db hP
    have hpr : go c db = (true, (go c db).2) := by
      have h := (Prod.mk.eta (p := go c db)).symm
      rw [h1.1] at h
      exact h
    rw [hpr]
    exact ih (fun c2 hc2 => hgo c2 (List.mem_cons_of_mem _ hc2)) (go c db).2 h1.2

/-- A live child listed by the cascade corresponds to a live child record in
the pre-state, because live documents are untouched by the evolution. -/
theorem mem_subs_live_child {now : Nat} {db : DB} {r u : String} {FB : List FolderR}
    (hevo : List.Forall₂ (FolderEvo now) db.folders FB) {c2 : String}
    (hc2 : c2 ∈ (FB.filter
      (fun f => f.parentId == some r && f.userId == u && f.isDeleted == false)).map
      FolderR.mid) :
    ∃ g ∈ db.folders, g.mid = c2 ∧ g.isDeleted = false ∧ g.userId = u ∧
      g.parentId = some r := by
  rcases List.mem_map.mp hc2 with ⟨g, hgmem, rfl⟩
  rcases List.mem_filter.mp hgmem with ⟨hgF, hgpred⟩
  simp only [Bool.and_eq_true, beq_iff_eq] at hgpred
  rcases forall2_mem_right hevo hgF with ⟨g0, hg0, hevo0⟩
  have hgg : g = g0 := hevo0.live_folder hgpred.2
  subst hgg
  exact ⟨g, hg0, rfl, hgpred.2, hgpred.1.2, hgpred.1.1⟩

/-- Termination of the recursive cascade: if every descending chain of live
folders below `r` has length at most `d` (in particular the folder graph is
acyclic at call time and the live subtree of `r` has depth at most `d`),
then recursion depth `d + 1` completes the cascade. -/
theorem cascade_terminates (u : String) (now : Nat) :
    ∀ (d : Nat) (db : DB) (r : String),
      (∀ l, LiveChain db u r l → l.length ≤ d) →
      (softDeleteFolderRecursive (d + 1) r u now db).1 = true := by
  intro d
  induction d with
  | zero =>
    intro db r hb
    rw [show (0 + 1 : Nat) = Nat.succ 0 from rfl, cascade_succ_eq]
    have hAB : List.Forall₂ (FolderEvo now) db.folders
        (updateFirst (fun f => f.mid == r && f.userId == u) (markFolder now) db.folders) :=
      List.Forall₂.imp (fun a b h => h.imp id And.right)
        (updateFirst_forall2 (fun f => f.mid == r && f.userId == u) (markFolder now)
          db.folders)
    have hempty : ((DB.mk
        (updateFirst (fun f => f.mid == r && f.userId == u) (markFolder now) db.folders)
        (db.files.map (fun x =>
          if x.folderId == some r && x.userId == u && x.isDeleted == false
          then markFile now x else x))).folders.filter
        (fun f => f.parentId == some r && f.userId == u && f.isDeleted == false)).map
        FolderR.mid = [] := by
      rw [List.eq_nil_iff_forall_not_mem]
      intro c2 hc2
      rcases mem_subs_live_child hAB hc2 with ⟨g, hg, hgmid, hgl, hgu, hgp⟩
      have hchain : LiveChain db u r [g.mid] :=
        LiveChain.cons hg hgl hgu hgp LiveChain.nil
      have := hb [g.mid] hchain
      simp at this
    rw [hempty]
    rfl
  | succ d ih =>
    intro db r hb
    rw [show (Nat.succ d + 1 : Nat) = Nat.succ (d + 1) from rfl, cascade_succ_eq]
    have hAB : List.Forall₂ (FolderEvo now) db.folders
        (updateFirst (fun f => f.mid == r && f.userId == u) (markFolder now) db.folders) :=
      List.Forall₂.imp (fun a b h => h.imp id And.right)
        (updateFirst_forall2 (fun f => f.mid == r && f.userId == u) (markFolder now)
          db.folders)
    refine (foldl_cascade_flag
      (fun dbX => List.Forall₂ (FolderEvo now) db.folders dbX.folders) _ ?_ _ hAB).1
    intro c2 hc2 dbX hP
    rcases mem_subs_live_child hAB hc2 with ⟨g, hg, hgmid, hgl, hgu, hgp⟩
    constructor
    · refine ih dbX c2 ?_
      intro l hl
      have hlc : LiveChain db u c2 l := liveChain_pullback hP hl
      have hchain : LiveChain db u r (g.mid :: l) :=
        LiveChain.cons hg hgl hgu hgp (by rw [hgmid]; exact hlc)
      have := hb (g.mid :: l) hchain
      simpa using this
    · exact forall2_trans (R := FolderEvo now) (S := FolderEvo now) (T := FolderEvo now)
        (fun _ _ _ hab hbc => folderEvo_trans hab hbc) hP
        (cascade_evolves u now (d + 1) c2 dbX).1

/-! ## Handler inversion and invariant characterizations -/

theorem forall2_imp_mem {R S : α → β → Prop} :
    ∀ {l : List α} {l' : List β}, List.Forall₂ R l l' →
      (∀ a ∈ l, ∀ b ∈ l', R a b → S a b) → List.Forall₂ S l l' := by
  intro l l' h him
  induction h with
  | nil => exact List.Forall₂.nil
  | cons hab htail ih =>
    refine List.Forall₂.cons
      (him _ (List.mem_cons_self _ _) _ (List.mem_cons_self _ _) hab) ?_
    exact ih (fun a ha b hb hr =>
      him a (List.mem_cons_of_mem _ ha) b (List.mem_cons_of_mem _ hb) hr)

theorem findLiveOwnedFolder_some {db : DB} {id u : String} {f : FolderR}
    (h : findLiveOwnedFolder db id u = some f) :
    f ∈ db.folders ∧ f.mid = id ∧ f.userId = u ∧ f.isDeleted = false := by
  have hmem := List.mem_of_find?_eq_some h
  have hpred := List.find?_some h
  simp only [Bool.and_eq_true, beq_iff_eq] at hpred
  exact ⟨hmem, hpred.1.1, hpred.1.2, hpred.2⟩

theorem findLiveOwnedFolder_none {db : DB} {id u : String}
    (h : ∀ f ∈ db.folders, ¬(f.mid = id ∧ f.userId = u ∧ f.isDeleted = false)) :
    findLiveOwnedFolder db id u = none := by
  rw [findLiveOwnedFolder, List.find?_eq_none]
  intro f hf
  simp only [Bool.and_eq_true, beq_iff_eq]
  intro hc
  exact h f hf ⟨hc.1.1, hc.1.2, hc.2⟩

theorem findLiveOwnedFile_some {db : DB} {id u : String} {x : FileR}
    (h : findLiveOwnedFile db id u = some x) :
    x ∈ db.files ∧ x.mid = id ∧ x.userId = u ∧ x.isDeleted = false := by
  have hmem := List.mem_of_find?_eq_some h
  have hpred := List.find?_some h
  simp only [Bool.and_eq_true, beq_iff_eq] at hpred
  exact ⟨hmem, hpred.1.1, hpred.1.2, hpred.2⟩

theorem findLiveOwnedFile_none {db : DB} {id u : String}
    (h : ∀ x ∈ db.files, ¬(x.mid = id ∧ x.userId = u ∧ x.isDeleted = false)) :
    findLiveOwnedFile db id u = none := by
  rw [findLiveOwnedFile, List.find?_eq_none]
  intro x hx
  simp only [Bool.and_eq_true, beq_iff_eq]
  intro hc
  exact h x hx ⟨hc.1.1, hc.1.2, hc.2⟩

theorem folderDELETE_ok_inv {u fid : String} {fuel now : Nat} {db db' : DB}
    (h : folderDELETE u fid fuel now db = (Except.ok (), db')) :
    ∃ f0, findLiveOwnedFolder db fid u = some f0 ∧
      (softDeleteFolderRecursive fuel fid u now db).1 = true ∧
      (softDeleteFolderRecursive fuel fid u now db).2 = db' := by
  unfold folderDELETE at h
  cases hfind : findLiveOwnedFolder db fid u with
  | none => rw [hfind] at h; simp at h
  | some f0 =>
    rw [hfind] at h
    cases hflag : (softDeleteFolderRecursive fuel fid u now db).1 with
    | false =>
      simp only [hflag] at h
      simp at h
    | true =>
      simp only [hflag] at h
      simp only [if_true] at h
      exact ⟨f0, rfl, rfl, congrArg Prod.snd h⟩

theorem noOrphansB_iff (db : DB) : noOrphansB db = true ↔
    ((∀ f ∈ db.folders, f.isDeleted = false → ∀ p, f.parentId = some p →
        ∃ q ∈ db.folders, q.mid = p ∧ q.isDeleted = false ∧ q.userId = f.userId) ∧
     (∀ x ∈ db.files, x.isDeleted = false → ∀ p, x.folderId = some p →
        ∃ q ∈ db.folders, q.mid = p ∧ q.isDeleted = false ∧ q.userId = x.userId)) := by
  unfold noOrphansB
  rw [Bool.and_eq_true, List.all_eq_true, List.all_eq_true]
  constructor
  · intro h
    constructor
    · intro f hf hfl p hp
      have := h.1 f hf
      rw [hfl, hp] at this
      simp only [Bool.false_or, List.any_eq_true, Bool.and_eq_true, beq_iff_eq] at this
      rcases this with ⟨q, hq, hqc⟩
      exact ⟨q, hq, hqc.1.1, hqc.1.2, hqc.2⟩
    · intro x hx hxl p hp
      have := h.2 x hx
      rw [hxl, hp] at this
      simp only [Bool.false_or, List.any_eq_true, Bool.and_eq_true, beq_iff_eq] at this
      rcases this with ⟨q, hq, hqc⟩
      exact ⟨q, hq, hqc.1.1, hqc.1.2, hqc.2⟩
  · intro h
    constructor
    · intro f hf
      cases hfl : f.isDeleted with
      | true => rfl
      | false =>
        cases hp : f.parentId with
        | none => rfl
        | some p =>
          rcases h.1 f hf hfl p hp with ⟨q, hq, hq1, hq2, hq3⟩
          simp only [Bool.false_or, List.any_eq_true, Bool.and_eq_true, beq_iff_eq]
          exact ⟨q, hq, ⟨hq1, hq2⟩, hq3⟩
    · intro x hx
      cases hxl : x.isDeleted with
      | true => rfl
      | false =>
        cases hp : x.folderId with
        | none => rfl
        | some p =>
          rcases h.2 x hx hxl p hp with ⟨q, hq, hq1, hq2, hq3⟩
          simp only [Bool.false_or, List.any_eq_true, Bool.and_eq_true, beq_iff_eq]
          exact ⟨q, hq, ⟨hq1, hq2⟩, hq3⟩

theorem delInvB_iff (db : DB) : delInvB db = true ↔
    ((∀ f ∈ db.folders, f.isDeleted = true → f.deletedAt.isSome = true) ∧
     (∀ x ∈ db.files, x.isDeleted = true → x.deletedAt.isSome = true)) := by
  unfold delInvB
  rw [Bool.and_eq_true, List.all_eq_true, List.all_eq_true]
  constructor
  · intro h
    constructor
    · intro f hf hfl
      have := h.1 f hf
      rw [hfl] at this
      simpa using this
    · intro x hx hxl
      have := h.2 x hx
      rw [hxl] at this
      simpa using this
  · intro h
    constructor
    · intro f hf
      cases hfl : f.isDeleted with
      | false => rfl
      | true => simpa using h.1 f hf hfl
    · intro x hx
      cases hxl : x.isDeleted with
      | false => rfl
      | true => simpa using h.2 x hx hxl

/-- Under no-orphans and unique ids, plain child-link reachability from a
live owned root coincides with live reachability, and reachable live folders
belong to the root's owner. -/
theorem reaches_to_reachesLive {db : DB} {u fid : String} {f0 : FolderR}
    (hnd : (db.folders.map FolderR.mid).Nodup)
    (hno : noOrphansB db = true)
    (hf0 : f0 ∈ db.folders) (hf0mid : f0.mid = fid) (hf0u : f0.userId = u)
    (hf0live : f0.isDeleted = false) :
    ∀ {x : String}, Reaches db fid x →
      ∀ g ∈ db.folders, g.mid = x → g.isDeleted = false →
        ReachesLive db u fid x ∧ g.userId = u := by
  intro x h
  induction h with
  | refl =>
    intro g hg hgmid hgl
    have hgf0 : g = f0 := nodup_map_inj hnd hg hf0 (by rw [hgmid, hf0mid])
    rw [hgf0]
    exact ⟨ReachesLive.refl, hf0u⟩
  | @step grec p hgrec hpar _ ih =>
    intro g hg hgmid hgl
    have hgg : g = grec := nodup_map_inj hnd hg hgrec hgmid
    subst hgg
    rcases (noOrphansB_iff db).mp hno with ⟨hnof, _⟩
    rcases hnof g hg hgl p hpar with ⟨q, hq, hqmid, hql, hqu⟩
    rcases ih q hq hqmid hql with ⟨hqreach, hquser⟩
    have hgu : g.userId = u := by rw [← hqu, hquser]
    exact ⟨ReachesLive.step hg hgl hgu hpar hqreach, hgu⟩

/-! ## Claims -/

/-- C2 (counterexample): the claim says a live folder named "Docs" at root
makes creating "docs" at root fail with DuplicateNameError.  On the code the
duplicate check of `POST /api/folders` matches the trimmed name exactly
(case-sensitively), so the second call succeeds: it returns the created
folder and inserts it. -/
theorem c2_counterexample :
    (foldersPOST "u" "docs" none "b" 1
      (DB.mk [⟨"a", "Docs", "u", none, false, none, 0⟩] [])).1 =
      Except.ok ⟨"b", "docs", "u", none, false, none, 1⟩ ∧
    (foldersPOST "u" "docs" none "b" 1
      (DB.mk [⟨"a", "Docs", "u", none, false, none, 0⟩] [])).2 =
      DB.mk [⟨"a", "Docs", "u", none, false, none, 0⟩,
        ⟨"b", "docs", "u", none, false, none, 1⟩] [] := by
  decide

/-- C2 (amended): createFolder rejects a duplicate only under exact
(case-sensitive) equality of the trimmed name within the scope
`(userId, parentId)`: when such a live folder exists (and the name passes
validation and the parent check), the call returns the 409 duplicate error
and leaves the database unchanged. -/
theorem c2_duplicate_check_case_sensitive (u name : String) (parentId : Option String)
    (newId : String) (now : Nat) (db : DB)
    (h0 : (name == "") = false)
    (h1 : ((jsTrim name).length == 0) = false)
    (h2 : decide ((jsTrim name).length > 100) = false)
    (hpar : (!truthy parentId || (findLiveOwnedFolder db (parentId.getD "") u).isSome) = true)
    (hdup : (db.folders.find? (fun f => f.name == jsTrim name && f.userId == u
        && f.parentId == jsOrNull parentId && f.isDeleted == false)).isSome = true) :
    foldersPOST u name parentId newId now db =
      (Except.error (ApiErr.duplicate "A folder with this name already exists in this location"),
        db) := by
  have h0p : ¬((name == "") = true) := by rw [h0]; exact Bool.false_ne_true
  have h1p : ¬(((jsTrim name).length == 0) = true) := by rw [h1]; exact Bool.false_ne_true
  have h2p : ¬((jsTrim name).length > 100) := by simpa using h2
  cases hfind : db.folders.find? (fun f => f.name == jsTrim name && f.userId == u
      && f.parentId == jsOrNull parentId && f.isDeleted == false) with
  | none => rw [hfind] at hdup; simp at hdup
  | some d =>
    simp only [foldersPOST]
    rw [if_neg h0p, if_neg h1p, if_neg h2p, hfind]
    cases htru : truthy parentId with
    | false => rw [if_neg Bool.false_ne_true]
    | true =>
      rw [htru] at hpar
      simp only [Bool.not_true, Bool.false_or] at hpar
      rcases Option.isSome_iff_exists.mp hpar with ⟨q, hq⟩
      rw [if_pos rfl, hq]

/-- C2 (witness). -/
theorem c2_witness :
    foldersPOST "u" "Docs" none "b" 1
      (DB.mk [⟨"a", "Docs", "u", none, false, none, 0⟩] []) =
      (Except.error (ApiErr.duplicate "A folder with this name already exists in this location"),
        DB.mk [⟨"a", "Docs", "u", none, false, none, 0⟩] []) :=
  c2_duplicate_check_case_sensitive "u" "Docs" none "b" 1
    (DB.mk [⟨"a", "Docs", "u", none, false, none, 0⟩] [])
    (by decide) (by decide) (by decide) (by decide) (by decide)

/-- C6 (counterexample): the claim says createFolder rejects reserved OS
device names with ValidationError.  The server route only validates
emptiness and length; it accepts the name "CON" and inserts the folder. -/
theorem c6_counterexample :
    (foldersPOST "u" "CON" none "a" 0 (DB.mk [] [])).1 =
      Except.ok ⟨"a", "CON", "u", none, false, none, 0⟩ ∧
    (foldersPOST "u" "a<b" none "a" 0 (DB.mk [] [])).1 =
      Except.ok ⟨"a", "a<b", "u", none, false, none, 0⟩ := by
  decide

/-- C6 (amended): the createFolder operation returns ValidationError and
inserts nothing when the name is empty after trimming or longer than 100
characters; the disallowed-character and reserved-device-name checks are
performed only by the client-side `validateFolderName` (which flags those
names before any request is sent), not by the server route. -/
theorem c6_name_validation_split (u name : String) (parentId : Option String)
    (newId : String) (now : Nat) (db : DB)
    (clientFolders : List FolderR) (currentParentId : Option String) (name2 : String)
    (hbad : (name == "" || (jsTrim name).length == 0 || decide ((jsTrim name).length > 100)) = true)
    (hbad2 : (jsTrim name2 == "" || decide ((jsTrim name2).length > 100)
      || name2.data.any (fun c => invalidFolderChars.contains c)
      || reservedNames.contains (upperStr (jsTrim name2))) = true) :
    isValidationErr (foldersPOST u name parentId newId now db).1 = true ∧
    (foldersPOST u name parentId newId now db).2 = db ∧
    (validateFolderName clientFolders currentParentId name2).isSome = true := by
  refine ⟨?_, ?_, ?_⟩
  case _ =>
    simp only [Bool.or_eq_true] at hbad
    simp only [foldersPOST]
    rcases hbad with (hb | hb) | hb
    · rw [if_pos hb]; rfl
    · by_cases he : (name == "") = true
      · rw [if_pos he]; rfl
      · rw [if_neg he, if_pos hb]; rfl
    · by_cases he : (name == "") = true
      · rw [if_pos he]; rfl
      · rw [if_neg he]
        by_cases hz : ((jsTrim name).length == 0) = true
        · rw [if_pos hz]; rfl
        · rw [if_neg hz, if_pos (by simpa using hb)]; rfl
  case _ =>
    simp only [Bool.or_eq_true] at hbad
    simp only [foldersPOST]
    rcases hbad with (hb | hb) | hb
    · rw [if_pos hb]
    · by_cases he : (name == "") = true
      · rw [if_pos he]
      · rw [if_neg he, if_pos hb]
    · by_cases he : (name == "") = true
      · rw [if_pos he]
      · rw [if_neg he]
        by_cases hz : ((jsTrim name).length == 0) = true
        · rw [if_pos hz]
        · rw [if_neg hz, if_pos (by simpa using hb)]
  case _ =>
    simp only [Bool.or_eq_true] at hbad2
    simp only [validateFolderName]
    rcases hbad2 with ((hb | hb) | hb) | hb
    · rw [if_pos hb]; rfl
    · by_cases he : (jsTrim name2 == "") = true
      · rw [if_pos he]; rfl
      · rw [if_neg he, if_pos (by simpa using hb)]; rfl
    · by_cases he : (jsTrim name2 == "") = true
      · rw [if_pos he]; rfl
      · rw [if_neg he]
        by_cases hl : ((jsTrim name2).length > 100)
        · rw [if_pos hl]; rfl
        · rw [if_neg hl, if_pos hb]; rfl
    · by_cases he : (jsTrim name2 == "") = true
      · rw [if_pos he]; rfl
      · rw [if_neg he]
        by_cases hl : ((jsTrim name2).length > 100)
        · rw [if_pos hl]; rfl
        · rw [if_neg hl]
          by_cases hc : (name2.data.any (fun c => invalidFolderChars.contains c)) = true
          · rw [if_pos hc]; rfl
          · rw [if_neg hc, if_pos hb]; rfl

/-- C6 (witness). -/
theorem c6_witness :
    isValidationErr (foldersPOST "u" "   " none "a" 0 (DB.mk [] [])).1 = true ∧
    (foldersPOST "u" "   " none "a" 0 (DB.mk [] [])).2 = DB.mk [] [] ∧
    (validateFolderName [] none "CON").isSome = true :=
  c6_name_validation_split "u" "   " none "a" 0 (DB.mk [] []) [] none "CON"
    (by decide) (by decide)

/-- C8: for every by-id access to a file (metadata, rename, delete,
download, preview) or folder (metadata, rename, delete), when the id is
absent, or every document with that id is soft-deleted, or every document
with that id belongs to another user, the caller-visible result is the same
constant 404 not-found response with the state unchanged — the three cases
are indistinguishable to the caller.  (The rename name must pass validation,
which precedes the lookup.) -/
theorem c8_uniform_not_found (u idf idd nameF nameD : String) (db : DB)
    (fuel now : Nat)
    (hfile : (∀ x ∈ db.files, ¬x.mid = idf) ∨
      (∀ x ∈ db.files, x.mid = idf → x.isDeleted = true) ∨
      (∀ x ∈ db.files, x.mid = idf → ¬x.userId = u))
    (hfold : (∀ f ∈ db.folders, ¬f.mid = idd) ∨
      (∀ f ∈ db.folders, f.mid = idd → f.isDeleted = true) ∨
      (∀ f ∈ db.folders, f.mid = idd → ¬f.userId = u))
    (hnf0 : (nameF == "") = false) (hnf1 : ((jsTrim nameF).length == 0) = false)
    (hnf2 : decide ((jsTrim nameF).length > 255) = false)
    (hnd0 : (nameD == "") = false) (hnd1 : ((jsTrim nameD).length == 0) = false)
    (hnd2 : decide ((jsTrim nameD).length > 100) = false) :
    fileGET u idf db = Except.error (ApiErr.notFound "File not found") ∧
    filePUT u idf nameF db = (Except.error (ApiErr.notFound "File not found"), db) ∧
    fileDELETE u idf now db = (Except.error (ApiErr.notFound "File not found"), db) ∧
    downloadGET u idf db = Except.error (ApiErr.notFound "File not found") ∧
    previewGET u idf db = Except.error (ApiErr.notFound "File not found") ∧
    folderGET u idd db = Except.error (ApiErr.notFound "Folder not found") ∧
    folderPUT u idd nameD db = (Except.error (ApiErr.notFound "Folder not found"), db) ∧
    folderDELETE u idd fuel now db =
      (Except.error (ApiErr.notFound "Folder not found"), db) := by
  have hfn : findLiveOwnedFile db idf u = none := by
    refine findLiveOwnedFile_none ?_
    intro x hx hc
    rcases hfile with h | h | h
    · exact h x hx hc.1
    · rw [h x hx hc.1] at hc; exact Bool.noConfusion hc.2.2
    · exact h x hx hc.1 hc.2.1
  have hdn : findLiveOwnedFolder db idd u = none := by
    refine findLiveOwnedFolder_none ?_
    intro f hf hc
    rcases hfold with h | h | h
    · exact h f hf hc.1
    · rw [h f hf hc.1] at hc; exact Bool.noConfusion hc.2.2
    · exact h f hf hc.1 hc.2.1
  have hnf0p : ¬((nameF == "") = true) := by rw [hnf0]; exact Bool.false_ne_true
  have hnf1p : ¬(((jsTrim nameF).length == 0) = true) := by
    rw [hnf1]; exact Bool.false_ne_true
  have hnf2p : ¬((jsTrim nameF).length > 255) := by simpa using hnf2
  have hnd0p : ¬((nameD == "") = true) := by rw [hnd0]; exact Bool.false_ne_true
  have hnd1p : ¬(((jsTrim nameD).length == 0) = true) := by
    rw [hnd1]; exact Bool.false_ne_true
  have hnd2p : ¬((jsTrim nameD).length > 100) := by simpa using hnd2
  refine ⟨?_, ?_, ?_, ?_, ?_, ?_, ?_, ?_⟩
  · rw [fileGET, hfn]
  · simp only [filePUT]
    rw [if_neg hnf0p, if_neg hnf1p, if_neg hnf2p, hfn]
  · rw [fileDELETE, hfn]
  · rw [downloadGET, hfn]
  · rw [previewGET, hfn]
  · rw [folderGET, hdn]
  · simp only [folderPUT]
    rw [if_neg hnd0p, if_neg hnd1p, if_neg hnd2p, hdn]
  · rw [folderDELETE, hdn]

/-- C8 (witness). -/
theorem c8_witness :
    fileGET "u" "x" (DB.mk [⟨"d", "D", "v", none, false, none, 0⟩]
        [⟨"x", "n", "o.txt", 1, "text/plain", "u", none, true, some 1, 0⟩]) =
      Except.error (ApiErr.notFound "File not found") ∧
    filePUT "u" "x" "nf" (DB.mk [⟨"d", "D", "v", none, false, none, 0⟩]
        [⟨"x", "n", "o.txt", 1, "text/plain", "u", none, true, some 1, 0⟩]) =
      (Except.error (ApiErr.notFound "File not found"),
        DB.mk [⟨"d", "D", "v", none, false, none, 0⟩]
          [⟨"x", "n", "o.txt", 1, "text/plain", "u", none, true, some 1, 0⟩]) ∧
    fileDELETE "u" "x" 7 (DB.mk [⟨"d", "D", "v", none, false, none, 0⟩]
        [⟨"x", "n", "o.txt", 1, "text/plain", "u", none, true, some 1, 0⟩]) =
      (Except.error (ApiErr.notFound "File not found"),
        DB.mk [⟨"d", "D", "v", none, false, none, 0⟩]
          [⟨"x", "n", "o.txt", 1, "text/plain", "u", none, true, some 1, 0⟩]) ∧
    downloadGET "u" "x" (DB.mk [⟨"d", "D", "v", none, false, none, 0⟩]
        [⟨"x", "n", "o.txt", 1, "text/plain", "u", none, true, some 1, 0⟩]) =
      Except.error (ApiErr.notFound "File not found") ∧
    previewGET "u" "x" (DB.mk [⟨"d", "D", "v", none, false, none, 0⟩]
        [⟨"x", "n", "o.txt", 1, "text/plain", "u", none, true, some 1, 0⟩]) =
      Except.error (ApiErr.notFound "File not found") ∧
    folderGET "u" "d" (DB.mk [⟨"d", "D", "v", none, false, none, 0⟩]
        [⟨"x", "n", "o.txt", 1, "text/plain", "u", none, true, some 1, 0⟩]) =
      Except.error (ApiErr.notFound "Folder not found") ∧
    folderPUT "u" "d" "nd" (DB.mk [⟨"d", "D", "v", none, false, none, 0⟩]
        [⟨"x", "n", "o.txt", 1, "text/plain", "u", none, true, some 1, 0⟩]) =
      (Except.error (ApiErr.notFound "Folder not found"),
        DB.mk [⟨"d", "D", "v", none, false, none, 0⟩]
          [⟨"x", "n", "o.txt", 1, "text/plain", "u", none, true, some 1, 0⟩]) ∧
    folderDELETE "u" "d" 5 7 (DB.mk [⟨"d", "D", "v", none, false, none, 0⟩]
        [⟨"x", "n", "o.txt", 1, "text/plain", "u", none, true, some 1, 0⟩]) =
      (Except.error (ApiErr.notFound "Folder not found"),
        DB.mk [⟨"d", "D", "v", none, false, none, 0⟩]
          [⟨"x", "n", "o.txt", 1, "text/plain", "u", none, true, some 1, 0⟩]) :=
  c8_uniform_not_found "u" "x" "d" "nf" "nd"
    (DB.mk [⟨"d", "D", "v", none, false, none, 0⟩]
      [⟨"x", "n", "o.txt", 1, "text/plain", "u", none, true, some 1, 0⟩]) 5 7
    (Or.inr (Or.inl (by decide))) (Or.inr (Or.inr (by decide)))
    (by decide) (by decide) (by decide) (by decide) (by decide) (by decide)

/-- C9 (counterexample): the claim says createFolder with parentId "root"
creates the folder at root.  On the code, `POST /api/folders` has no special
case for "root": it looks "root" up as a parent id, finds nothing, and fails
with the parent-not-found response, inserting nothing. -/
theorem c9_counterexample :
    foldersPOST "u" "X" (some "root") "b" 1 (DB.mk [] []) =
      (Except.error (ApiErr.notFound "Parent folder not found"), DB.mk [] []) := by
  decide

/-- C9 (amended): listing files, listing folders and uploading files treat
the value "root" exactly like an omitted value (the null, top-level scope),
but createFolder treats "root" as an ordinary parent id: when no folder has
id "root", the call fails with the parent-not-found error and creates
nothing instead of creating the folder at root. -/
theorem c9_root_scope (u fname : String) (fsize : Nat) (fmime : String)
    (maxFileSize : Nat) (storedName newId : String) (now : Nat) (db : DB)
    (sortBy : SortKey) (order : SortOrder) (nameD newIdD : String)
    (hroot : db.folders.all (fun f => !(f.mid == "root")) = true)
    (hn0 : (nameD == "") = false) (hn1 : ((jsTrim nameD).length == 0) = false)
    (hn2 : decide ((jsTrim nameD).length > 100) = false) :
    filesGET u (some "root") sortBy order db = filesGET u none sortBy order db ∧
    foldersGET u (some "root") sortBy order db = foldersGET u none sortBy order db ∧
    filesPOST u fname fsize fmime (some "root") maxFileSize storedName newId now db =
      filesPOST u fname fsize fmime none maxFileSize storedName newId now db ∧
    foldersPOST u nameD (some "root") newIdD now db =
      (Except.error (ApiErr.notFound "Parent folder not found"), db) := by
  have hdn : findLiveOwnedFolder db "root" u = none := by
    refine findLiveOwnedFolder_none ?_
    intro f hf hc
    have := List.all_eq_true.mp hroot f hf
    simp only [Bool.not_eq_true'] at this
    rw [hc.1] at this
    simp at this
  have hn0p : ¬((nameD == "") = true) := by rw [hn0]; exact Bool.false_ne_true
  have hn1p : ¬(((jsTrim nameD).length == 0) = true) := by
    rw [hn1]; exact Bool.false_ne_true
  have hn2p : ¬((jsTrim nameD).length > 100) := by simpa using hn2
  refine ⟨rfl, rfl, rfl, ?_⟩
  simp only [foldersPOST]
  rw [if_neg hn0p, if_neg hn1p, if_neg hn2p,
    if_pos (show truthy (some "root") = true from rfl)]
  rw [show ((some "root" : Option String).getD "") = "root" from rfl, hdn]

/-- C9 (witness). -/
theorem c9_witness :
    filesGET "u" (some "root") SortKey.name SortOrder.asc (DB.mk [] []) =
      filesGET "u" none SortKey.name SortOrder.asc (DB.mk [] []) ∧
    foldersGET "u" (some "root") SortKey.name SortOrder.asc (DB.mk [] []) =
      foldersGET "u" none SortKey.name SortOrder.asc (DB.mk [] []) ∧
    filesPOST "u" "a.txt" 1 "text/plain" (some "root") 10 "sn" "n1" 3 (DB.mk [] []) =
      filesPOST "u" "a.txt" 1 "text/plain" none 10 "sn" "n1" 3 (DB.mk [] []) ∧
    foldersPOST "u" "X" (some "root") "b" 1 (DB.mk [] []) =
      (Except.error (ApiErr.notFound "Parent folder not found"), DB.mk [] []) :=
  c9_root_scope "u" "a.txt" 1 "text/plain" 10 "sn" "n1" 3 (DB.mk [] [])
    SortKey.name SortOrder.asc "X" "b" (by decide) (by decide) (by decide) (by decide)

theorem delInvB_of_pointwise {db : DB} {F : List FolderR} {X : List FileR}
    (hinv : delInvB db = true)
    (hf : ∀ f' ∈ F, (∃ f ∈ db.folders, f' = f) ∨
      (f'.isDeleted = true → f'.deletedAt.isSome = true))
    (hx : ∀ x' ∈ X, (∃ x ∈ db.files, x' = x) ∨
      (x'.isDeleted = true → x'.deletedAt.isSome = true)) :
    delInvB (DB.mk F X) = true := by
  rw [delInvB_iff]
  rw [delInvB_iff] at hinv
  refine ⟨?_, ?_⟩
  · intro f' hf' hd
    rcases hf f' hf' with ⟨f, hfm, hfe⟩ | h
    · subst hfe; exact hinv.1 f' hfm hd
    · exact h hd
  · intro x' hx' hd
    rcases hx x' hx' with ⟨x, hxm, hxe⟩ | h
    · subst hxe; exact hinv.2 x' hxm hd
    · exact h hd

theorem mem_updateFirst {p : α → Bool} {m : α → α} {l : List α} {a' : α}
    (h : a' ∈ updateFirst p m l) :
    ∃ a ∈ l, a' = a ∨ (p a = true ∧ a' = m a) := by
  rcases forall2_mem_right (updateFirst_forall2 p m l) h with ⟨a, ha, hr⟩
  exact ⟨a, ha, hr⟩

theorem foldersPOST_cases (u name : String) (parentId : Option String)
    (newId : String) (now : Nat) (db : DB) :
    freshFolder (foldersPOST u name parentId newId now db).1 = true ∧
    ((foldersPOST u name parentId newId now db).2 = db ∨
      ∃ fl : FolderR,
        (foldersPOST u name parentId newId now db).1 = Except.ok fl ∧
        fl.userId = u ∧ fl.isDeleted = false ∧ fl.deletedAt = none ∧
        (fl.parentId = none ∨ ∃ q ∈ db.folders, fl.parentId = some q.mid ∧
          q.isDeleted = false ∧ q.userId = u) ∧
        (foldersPOST u name parentId newId now db).2 =
          DB.mk (db.folders ++ [fl]) db.files) := by
  simp only [foldersPOST]
  split
  · exact ⟨rfl, Or.inl rfl⟩
  split
  · exact ⟨rfl, Or.inl rfl⟩
  split
  · exact ⟨rfl, Or.inl rfl⟩
  split
  · rename_i htru
    split
    · exact ⟨rfl, Or.inl rfl⟩
    · rename_i q hq
      split
      · exact ⟨rfl, Or.inl rfl⟩
      · refine ⟨rfl, Or.inr ⟨_, rfl, rfl, rfl, rfl, ?_, rfl⟩⟩
        rcases findLiveOwnedFolder_some hq with ⟨hqm, hqmid, hqu, hql⟩
        refine Or.inr ⟨q, hqm, ?_, hql, hqu⟩
        show jsOrNull parentId = some q.mid
        rw [hqmid]
        cases parentId with
        | none => exact absurd htru (by simp [truthy])
        | some s =>
          simp only [jsOrNull]
          rw [if_pos htru]
          rfl
  · rename_i htru
    split
    · exact ⟨rfl, Or.inl rfl⟩
    · refine ⟨rfl, Or.inr ⟨_, rfl, rfl, rfl, rfl, Or.inl ?_, rfl⟩⟩
      show jsOrNull parentId = none
      simp only [jsOrNull]
      rw [if_neg htru]

theorem filesPOST_cases (u fname : String) (fsize : Nat) (fmime : String)
    (folderId : Option String) (maxFileSize : Nat) (storedName newId : String)
    (now : Nat) (db : DB) :
    freshFile (filesPOST u fname fsize fmime folderId maxFileSize storedName
      newId now db).1 = true ∧
    ((filesPOST u fname fsize fmime folderId maxFileSize storedName
        newId now db).2 = db ∨
      ∃ xr : FileR,
        (filesPOST u fname fsize fmime folderId maxFileSize storedName
          newId now db).1 = Except.ok xr ∧
        xr.userId = u ∧ xr.isDeleted = false ∧ xr.deletedAt = none ∧
        (¬folderId = some "" →
          (xr.folderId = none ∨ ∃ q ∈ db.folders, xr.folderId = some q.mid ∧
            q.isDeleted = false ∧ q.userId = u)) ∧
        (filesPOST u fname fsize fmime folderId maxFileSize storedName
          newId now db).2 = DB.mk db.folders (db.files ++ [xr])) := by
  simp only [filesPOST]
  split
  · exact ⟨rfl, Or.inl rfl⟩
  split
  · rename_i htru
    split
    · exact ⟨rfl, Or.inl rfl⟩
    · rename_i q hq
      split
      · exact ⟨rfl, Or.inl rfl⟩
      · refine ⟨rfl, Or.inr ⟨_, rfl, rfl, rfl, rfl, fun _ => ?_, rfl⟩⟩
        rcases findLiveOwnedFolder_some hq with ⟨hqm, hqmid, hqu, hql⟩
        refine Or.inr ⟨q, hqm, ?_, hql, hqu⟩
        show fileScope folderId = some q.mid
        rw [hqmid]
        cases folderId with
        | none => exact absurd htru (by simp [truthy])
        | some s =>
          simp only [Bool.and_eq_true, Bool.not_eq_true'] at htru
          simp only [fileScope]
          rw [if_neg (by rw [htru.2]; exact Bool.false_ne_true)]
          rfl
  · rename_i hcond
    split
    · exact ⟨rfl, Or.inl rfl⟩
    · refine ⟨rfl, Or.inr ⟨_, rfl, rfl, rfl, rfl, fun hfid => Or.inl ?_, rfl⟩⟩
      show fileScope folderId = none
      cases folderId with
      | none => rfl
      | some s =>
        by_cases hs : s = "root"
        · rw [hs]; decide
        · exfalso
          have hs2 : ¬s = "" := fun he => hfid (by rw [he])
          have htr : truthy (some s) = true := by simp [truthy, hs2]
          have hrt : ((some s : Option String) == some "root") = false := by
            simp [hs]
          apply hcond
          rw [htr, hrt]
          rfl

theorem folderPUT_cases (u id name : String) (db : DB) :
    (folderPUT u id name db).2 = db ∨
    (folderPUT u id name db).2 = DB.mk
      (updateFirst (fun f => f.mid == id && f.userId == u && f.isDeleted == false)
        (fun f => { f with name := jsTrim name }) db.folders) db.files := by
  simp only [folderPUT]
  split
  · exact Or.inl rfl
  split
  · exact Or.inl rfl
  split
  · exact Or.inl rfl
  split
  · exact Or.inl rfl
  split
  · exact Or.inl rfl
  · exact Or.inr rfl

theorem filePUT_cases (u id name : String) (db : DB) :
    (filePUT u id name db).2 = db ∨
    (filePUT u id name db).2 = DB.mk db.folders
      (updateFirst (fun x => x.mid == id && x.userId == u && x.isDeleted == false)
        (fun x => { x with originalName := jsTrim name }) db.files) := by
  simp only [filePUT]
  split
  · exact Or.inl rfl
  split
  · exact Or.inl rfl
  split
  · exact Or.inl rfl
  split
  · exact Or.inl rfl
  split
  · exact Or.inl rfl
  · exact Or.inr rfl

theorem fileDELETE_cases (u id : String) (now : Nat) (db : DB) :
    (fileDELETE u id now db).2 = db ∨
    (fileDELETE u id now db).2 = DB.mk db.folders
      (updateFirst (fun x => x.mid == id && x.userId == u) (markFile now)
        db.files) := by
  simp only [fileDELETE]
  split
  · exact Or.inl rfl
  · exact Or.inr rfl

theorem folderDELETE_cases (u id : String) (fuel now : Nat) (db : DB) :
    (folderDELETE u id fuel now db).2 = db ∨
    (folderDELETE u id fuel now db).2 =
      (softDeleteFolderRecursive fuel id u now db).2 := by
  simp only [folderDELETE]
  split
  · exact Or.inl rfl
  split
  · exact Or.inr rfl
  · exact Or.inr rfl

theorem noOrphans_folders_rename (db : DB) (pred : FolderR → Bool)
    (newName : String) (hno : noOrphansB db = true) :
    noOrphansB (DB.mk (updateFirst pred (fun f => { f with name := newName })
      db.folders) db.files) = true := by
  have hnoP := (noOrphansB_iff db).1 hno
  rw [noOrphansB_iff]
  have hback : ∀ f' ∈ updateFirst pred (fun f => { f with name := newName })
      db.folders, ∃ f ∈ db.folders, f'.mid = f.mid ∧ f'.parentId = f.parentId ∧
        f'.isDeleted = f.isDeleted ∧ f'.userId = f.userId := by
    intro f' hf'
    rcases mem_updateFirst hf' with ⟨f, hfm, he | ⟨_, he⟩⟩
    · exact ⟨f, hfm, by rw [he], by rw [he], by rw [he], by rw [he]⟩
    · exact ⟨f, hfm, by rw [he], by rw [he], by rw [he], by rw [he]⟩
  have hfwd : ∀ q ∈ db.folders,
      ∃ q' ∈ updateFirst pred (fun f => { f with name := newName }) db.folders,
        q'.mid = q.mid ∧ q'.isDeleted = q.isDeleted ∧ q'.userId = q.userId := by
    intro q hq
    rcases forall2_mem_left (updateFirst_forall2 pred
        (fun f => { f with name := newName }) db.folders) hq
      with ⟨q', hq', he | ⟨_, he⟩⟩
    · exact ⟨q', hq', by rw [he], by rw [he], by rw [he]⟩
    · exact ⟨q', hq', by rw [he], by rw [he], by rw [he]⟩
  constructor
  · intro f' hf' hfl p hp
    rcases hback f' hf' with ⟨f, hfm, hmid, hpar, hdel, husr⟩
    rcases hnoP.1 f hfm (by rw [← hdel]; exact hfl) p (by rw [← hpar]; exact hp)
      with ⟨q, hq, hqmid, hql, hqu⟩
    rcases hfwd q hq with ⟨q', hq'm, hq'mid, hq'del, hq'usr⟩
    exact ⟨q', hq'm, by rw [hq'mid]; exact hqmid, by rw [hq'del]; exact hql,
      by rw [hq'usr, husr]; exact hqu⟩
  · intro x hx hxl p hp
    rcases hnoP.2 x hx hxl p hp with ⟨q, hq, hqmid, hql, hqu⟩
    rcases hfwd q hq with ⟨q', hq'm, hq'mid, hq'del, hq'usr⟩
    exact ⟨q', hq'm, by rw [hq'mid]; exact hqmid, by rw [hq'del]; exact hql,
      by rw [hq'usr]; exact hqu⟩

theorem noOrphans_files_update (db : DB) (pred : FileR → Bool) (m : FileR → FileR)
    (hm : ∀ x, (m x).isDeleted = false →
      (m x).folderId = x.folderId ∧ (m x).userId = x.userId ∧ x.isDeleted = false)
    (hno : noOrphansB db = true) :
    noOrphansB (DB.mk db.folders (updateFirst pred m db.files)) = true := by
  have hnoP := (noOrphansB_iff db).1 hno
  rw [noOrphansB_iff]
  constructor
  · intro f hf hfl p hp
    exact hnoP.1 f hf hfl p hp
  · intro x' hx' hxl p hp
    rcases mem_updateFirst hx' with ⟨x, hxm, he | ⟨_, he⟩⟩
    · rw [he] at hxl hp
      rcases hnoP.2 x hxm hxl p hp with ⟨q, hq, hqmid, hql, hqu⟩
      exact ⟨q, hq, hqmid, hql, by rw [he]; exact hqu⟩
    · have hml : (m x).isDeleted = false := by rw [← he]; exact hxl
      rcases hm x hml with ⟨hfid, husr, hxlive⟩
      have hpx : x.folderId = some p := by rw [← hfid, ← he]; exact hp
      rcases hnoP.2 x hxm hxlive p hpx with ⟨q, hq, hqmid, hql, hqu⟩
      exact ⟨q, hq, hqmid, hql, by rw [he, husr]; exact hqu⟩

/-- C7 (counterexample): the claim says the file listing is ordered by the
DISPLAY name (`originalName`).  The route sorts by the stored `name`, which
is prefixed with the upload timestamp, so a file displayed as "file10.txt"
but uploaded earlier sorts before a file displayed as "file2.txt" — the
display names come back out of natural order. -/
theorem c7_counterexample :
    (filesGET "u" none SortKey.name SortOrder.asc (DB.mk []
      [⟨"f1", "1700000000_aa_file10.txt", "file10.txt", 1, "text/plain",
         "u", none, false, none, 0⟩,
       ⟨"f2", "1700000001_bb_file2.txt", "file2.txt", 2, "text/plain",
         "u", none, false, none, 0⟩])).map FileR.originalName =
      ["file10.txt", "file2.txt"] ∧
    customFileNameSort "file2.txt" "file10.txt" = Ordering.lt := by
  decide

/-- C7 (amended): listing files with sort key `name` ascending returns a
permutation of the live in-scope files that is pairwise ordered by the
natural (numeric-aware), case-insensitive comparator — but applied to the
STORED `name` (timestamp-prefixed), not the display `originalName`.  The
comparator itself is natural: "file2" compares below "file10". -/
theorem c7_sorted_by_stored_name (u : String) (folderId : Option String)
    (db : DB) :
    (filesGET u folderId SortKey.name SortOrder.asc db).Perm
      (db.files.filter (fun x => x.userId == u && x.isDeleted == false &&
        folderScopeFilter folderId x.folderId)) ∧
    (filesGET u folderId SortKey.name SortOrder.asc db).Pairwise
      (fun a b => fileNameLe a b = true) ∧
    customFileNameSort "file2" "file10" = Ordering.lt := by
  have hlaw := customFileNameSort_lawful.comap FileR.name
  refine ⟨insertionSort_perm _ _, ?_, by decide⟩
  exact insertionSort_pairwise (fun a b => hlaw.leB_total a b)
    (fun a b c hab hbc => hlaw.leB_trans hab hbc) _

/-- C10: every core operation preserves the soft-delete timestamp invariant
(`isDeleted = true` implies `deletedAt` is set — the cascade, the file delete
and the schema defaults all keep flag and timestamp in sync), and the entity
a successful create returns is live with `deletedAt` null. -/
theorem c10_soft_delete_timestamps (u nameD nameF idF idD fname : String)
    (parentId folderId : Option String) (newIdD newIdF : String)
    (fuel now fsize maxFileSize : Nat) (fmime storedName : String) (db : DB)
    (hinv : delInvB db = true) :
    delInvB (foldersPOST u nameD parentId newIdD now db).2 = true ∧
    freshFolder (foldersPOST u nameD parentId newIdD now db).1 = true ∧
    delInvB (folderPUT u idD nameD db).2 = true ∧
    delInvB (folderDELETE u idD fuel now db).2 = true ∧
    delInvB (filesPOST u fname fsize fmime folderId maxFileSize storedName
      newIdF now db).2 = true ∧
    freshFile (filesPOST u fname fsize fmime folderId maxFileSize storedName
      newIdF now db).1 = true ∧
    delInvB (filePUT u idF nameF db).2 = true ∧
    delInvB (fileDELETE u idF now db).2 = true := by
  obtain ⟨hfreshD, hcD⟩ := foldersPOST_cases u nameD parentId newIdD now db
  obtain ⟨hfreshF, hcF⟩ := filesPOST_cases u fname fsize fmime folderId
    maxFileSize storedName newIdF now db
  refine ⟨?_, hfreshD, ?_, ?_, ?_, hfreshF, ?_, ?_⟩
  · rcases hcD with h | ⟨fl, hok, hflu, hfl1, hfl2, hpp, h⟩
    · rw [h]; exact hinv
    · rw [h]
      refine delInvB_of_pointwise hinv ?_ ?_
      · intro f' hmem
        rcases List.mem_append.mp hmem with hm | hm
        · exact Or.inl ⟨f', hm, rfl⟩
        · refine Or.inr ?_
          intro hd
          rw [List.mem_singleton.mp hm, hfl1] at hd
          exact Bool.noConfusion hd
      · intro x' hx'
        exact Or.inl ⟨x', hx', rfl⟩
  · rcases folderPUT_cases u idD nameD db with h | h
    · rw [h]; exact hinv
    · rw [h]
      refine delInvB_of_pointwise hinv ?_ ?_
      · intro f' hmem
        rcases mem_updateFirst hmem with ⟨f, hfm, hfe | ⟨hp, hfe⟩⟩
        · exact Or.inl ⟨f, hfm, hfe⟩
        · refine Or.inr ?_
          intro hd
          rw [hfe] at hd
          have hd2 : f.isDeleted = true := hd
          simp only [Bool.and_eq_true, beq_iff_eq] at hp
          rw [hp.2] at hd2
          exact Bool.noConfusion hd2
      · intro x' hx'
        exact Or.inl ⟨x', hx', rfl⟩
  · rcases folderDELETE_cases u idD fuel now db with h | h
    · rw [h]; exact hinv
    · rw [h]
      have hevo := cascade_evolves u now fuel idD db
      refine delInvB_of_pointwise hinv ?_ ?_
      · intro f' hf'
        rcases forall2_mem_right hevo.1 hf' with ⟨f, hfm, he | he⟩
        · exact Or.inl ⟨f, hfm, he⟩
        · exact Or.inr (fun _ => by rw [he]; rfl)
      · intro x' hx'
        rcases forall2_mem_right hevo.2 hx' with ⟨x, hxm, he | he⟩
        · exact Or.inl ⟨x, hxm, he⟩
        · exact Or.inr (fun _ => by rw [he]; rfl)
  · rcases hcF with h | ⟨xr, hok2, hxru, hxr1, hxr2, hxpp, h⟩
    · rw [h]; exact hinv
    · rw [h]
      refine delInvB_of_pointwise hinv ?_ ?_
      · intro f' hf'
        exact Or.inl ⟨f', hf', rfl⟩
      · intro x' hmem
        rcases List.mem_append.mp hmem with hm | hm
        · exact Or.inl ⟨x', hm, rfl⟩
        · refine Or.inr ?_
          intro hd
          rw [List.mem_singleton.mp hm, hxr1] at hd
          exact Bool.noConfusion hd
  · rcases filePUT_cases u idF nameF db with h | h
    · rw [h]; exact hinv
    · rw [h]
      refine delInvB_of_pointwise hinv ?_ ?_
      · intro f' hf'
        exact Or.inl ⟨f', hf', rfl⟩
      · intro x' hmem
        rcases mem_updateFirst hmem with ⟨x, hxm, hxe | ⟨hp, hxe⟩⟩
        · exact Or.inl ⟨x, hxm, hxe⟩
        · refine Or.inr ?_
          intro hd
          rw [hxe] at hd
          have hd2 : x.isDeleted = true := hd
          simp only [Bool.and_eq_true, beq_iff_eq] at hp
          rw [hp.2] at hd2
          exact Bool.noConfusion hd2
  · rcases fileDELETE_cases u idF now db with h | h
    · rw [h]; exact hinv
    · rw [h]
      refine delInvB_of_pointwise hinv ?_ ?_
      · intro f' hf'
        exact Or.inl ⟨f', hf', rfl⟩
      · intro x' hmem
        rcases mem_updateFirst hmem with ⟨x, hxm, hxe | ⟨hp, hxe⟩⟩
        · exact Or.inl ⟨x, hxm, hxe⟩
        · exact Or.inr (fun _ => by rw [hxe]; rfl)

/-- C10 (witness). -/
theorem c10_witness :
    delInvB (foldersPOST "u" "A" none "n1" 5 (DB.mk [] [])).2 = true ∧
    freshFolder (foldersPOST "u" "A" none "n1" 5 (DB.mk [] [])).1 = true ∧
    delInvB (folderPUT "u" "d1" "A" (DB.mk [] [])).2 = true ∧
    delInvB (folderDELETE "u" "d1" 2 5 (DB.mk [] [])).2 = true ∧
    delInvB (filesPOST "u" "c.txt" 4 "text/plain" none 10 "sn" "n2" 5
      (DB.mk [] [])).2 = true ∧
    freshFile (filesPOST "u" "c.txt" 4 "text/plain" none 10 "sn" "n2" 5
      (DB.mk [] [])).1 = true ∧
    delInvB (filePUT "u" "x1" "B" (DB.mk [] [])).2 = true ∧
    delInvB (fileDELETE "u" "x1" 5 (DB.mk [] [])).2 = true :=
  c10_soft_delete_timestamps "u" "A" "B" "x1" "d1" "c.txt" none none "n1" "n2"
    2 5 4 10 "text/plain" "sn" (DB.mk [] []) (by decide)

/-- C3 (counterexample): the claim says a repeated deleteFolder — including
on a partially-deleted tree — converges to fully-deleted without error.  On
the code, the route's lookup filters on `isDeleted: false`, so once the root
folder is marked the call returns 404 and touches nothing: the still-live
child "c" of the already-deleted folder "f" stays live. -/
theorem c3_counterexample :
    folderDELETE "u" "f" 5 9
      (DB.mk [⟨"f", "F", "u", none, true, some 1, 0⟩,
              ⟨"c", "C", "u", some "f", false, none, 0⟩] []) =
    (Except.error (ApiErr.notFound "Folder not found"),
      DB.mk [⟨"f", "F", "u", none, true, some 1, 0⟩,
             ⟨"c", "C", "u", some "f", false, none, 0⟩] []) := by
  decide

/-- C3 (amended): after a successful deleteFolder, a second deleteFolder on
the same id is a no-op on the state but is NOT a silent success: the root is
now soft-deleted, the `isDeleted: false` lookup misses, and the call returns
the 404 not-found error with the state unchanged.  There is no resume of a
partially-deleted subtree. -/
theorem c3_second_call_is_404 (u fid : String) (fuel now fuel2 now2 : Nat)
    (db db' : DB) (hnd : (db.folders.map FolderR.mid).Nodup)
    (h : folderDELETE u fid fuel now db = (Except.ok (), db')) :
    folderDELETE u fid fuel2 now2 db' =
      (Except.error (ApiErr.notFound "Folder not found"), db') := by
  rcases folderDELETE_ok_inv h with ⟨f0, hfind, hflag, hdb2⟩
  rcases findLiveOwnedFolder_some hfind with ⟨hf0m, hf0mid, hf0u, hf0l⟩
  have hor : OwnRoot db u fid := by
    intro f hf hmid
    have hef : f = f0 := nodup_map_inj hnd hf hf0m (by rw [hmid, hf0mid])
    rw [hef]; exact hf0u
  have hmaster := cascade_master u now fuel fid db hnd hor
  simp only at hmaster
  rw [hflag, hdb2] at hmaster
  have hnone : findLiveOwnedFolder db' fid u = none := by
    refine findLiveOwnedFolder_none ?_
    intro f' hf' hc
    rcases forall2_mem_right hmaster.1 hf' with ⟨f, hfm, hrel⟩
    have hff : f' = f := by
      rcases hrel.1 with he | ⟨he, _, _⟩
      · exact he
      · rw [he] at hc
        exact absurd hc.2.2 (by simp [markFolder])
    have hmid : f.mid = fid := by rw [← hff]; exact hc.1
    have hdead := hrel.2 rfl (by rw [hmid]; exact ReachesLive.refl)
    rw [hdead] at hc
    exact Bool.noConfusion hc.2.2
  rw [folderDELETE, hnone]

/-- C3 (witness). -/
theorem c3_witness :
    folderDELETE "u" "f" 3 9 (DB.mk [⟨"f", "F", "u", none, true, some 7, 0⟩] []) =
      (Except.error (ApiErr.notFound "Folder not found"),
        DB.mk [⟨"f", "F", "u", none, true, some 7, 0⟩] []) :=
  c3_second_call_is_404 "u" "f" 1 7 3 9
    (DB.mk [⟨"f", "F", "u", none, false, none, 0⟩] [])
    (DB.mk [⟨"f", "F", "u", none, true, some 7, 0⟩] [])
    (by decide) (by decide)

/-- C5: when the live folder graph below the root is acyclic — stated as:
every descending chain of live folders of the user below `r` has length at
most `d`, the depth of the subtree — the recursive cascade terminates within
`d + 1` nested calls, returning the completed flag, with no visited-set
bookkeeping in the algorithm. -/
theorem c5_cascade_terminates (u r : String) (now d : Nat) (db : DB)
    (hdepth : ∀ l, LiveChain db u r l → l.length ≤ d) :
    (softDeleteFolderRecursive (d + 1) r u now db).1 = true :=
  cascade_terminates u now d db r hdepth

/-- C5 (witness). -/
theorem c5_witness :
    (softDeleteFolderRecursive (0 + 1) "f" "u" 9
      (DB.mk [⟨"f", "F", "u", none, false, none, 0⟩] [])).1 = true :=
  c5_cascade_terminates "u" "f" 9 0
    (DB.mk [⟨"f", "F", "u", none, false, none, 0⟩] [])
    (by
      intro l h
      cases h with
      | nil => exact Nat.le_refl 0
      | cons hg hl hu hp ht =>
        rw [List.mem_singleton.mp hg] at hp
        exact Option.noConfusion hp)

/-- C4: every core operation preserves the no-orphans invariant — after
createFolder, renameFolder, a completed deleteFolder, upload, renameFile and
deleteFile, every live entity with a non-null parent reference points to a
live folder of the same user.  Side conditions reflect the data model: folder
ids are unique, and the upload's form value is never the empty string (not an
ObjectId; such a request dies in the id cast, not in a metadata write). -/
theorem c4_no_orphans (u nameD nameF idF idD fname : String)
    (parentId folderId : Option String) (newIdD newIdF : String)
    (fuel now fsize maxFileSize : Nat) (fmime storedName : String)
    (db db' : DB) (hno : noOrphansB db = true)
    (hnd : (db.folders.map FolderR.mid).Nodup)
    (hfid : ¬folderId = some "") :
    noOrphansB (foldersPOST u nameD parentId newIdD now db).2 = true ∧
    noOrphansB (folderPUT u idD nameD db).2 = true ∧
    (folderDELETE u idD fuel now db = (Except.ok (), db') →
      noOrphansB db' = true) ∧
    noOrphansB (filesPOST u fname fsize fmime folderId maxFileSize storedName
      newIdF now db).2 = true ∧
    noOrphansB (filePUT u idF nameF db).2 = true ∧
    noOrphansB (fileDELETE u idF now db).2 = true := by
  have hnoP := (noOrphansB_iff db).1 hno
  refine ⟨?_, ?_, ?_, ?_, ?_, ?_⟩
  · obtain ⟨-, hcD⟩ := foldersPOST_cases u nameD parentId newIdD now db
    rcases hcD with h | ⟨fl, hok, hflu, hfll, hfld, hpp, h⟩
    · rw [h]; exact hno
    · rw [h, noOrphansB_iff]
      constructor
      · intro f hf hfl2 p hp
        rcases List.mem_append.mp hf with hm | hm
        · rcases hnoP.1 f hm hfl2 p hp with ⟨q, hq, hrest⟩
          exact ⟨q, List.mem_append_left _ hq, hrest⟩
        · have hffl : f = fl := List.mem_singleton.mp hm
          rcases hpp with hnone | ⟨q, hq, hqp, hql, hqu⟩
          · rw [hffl, hnone] at hp
            exact Option.noConfusion hp
          · rw [hffl, hqp] at hp
            have hqe : q.mid = p := Option.some.inj hp
            exact ⟨q, List.mem_append_left _ hq, hqe, hql,
              by rw [hffl, hflu]; exact hqu⟩
      · intro x hx hxl p hp
        rcases hnoP.2 x hx hxl p hp with ⟨q, hq, hrest⟩
        exact ⟨q, List.mem_append_left _ hq, hrest⟩
  · rcases folderPUT_cases u idD nameD db with h | h
    · rw [h]; exact hno
    · rw [h]
      exact noOrphans_folders_rename db _ _ hno
  · intro hdel
    rcases folderDELETE_ok_inv hdel with ⟨f0, hfind, hflag, hdb2⟩
    rcases findLiveOwnedFolder_some hfind with ⟨hf0m, hf0mid, hf0u, hf0l⟩
    have hor : OwnRoot db u idD := by
      intro f hf hmid
      have hef : f = f0 := nodup_map_inj hnd hf hf0m (by rw [hmid, hf0mid])
      rw [hef]; exact hf0u
    have hmaster := cascade_master u now fuel idD db hnd hor
    simp only at hmaster
    rw [hflag, hdb2] at hmaster
    rw [noOrphansB_iff]
    constructor
    · intro f' hf' hfl p hp
      rcases forall2_mem_right hmaster.1 hf' with ⟨f, hfm, hrel⟩
      have hff : f' = f := by
        rcases hrel.1 with he | ⟨he, -, -⟩
        · exact he
        · rw [he] at hfl; exact absurd hfl (by simp [markFolder])
      have hflive : f.isDeleted = false := by rw [← hff]; exact hfl
      have hpar : f.parentId = some p := by rw [← hff]; exact hp
      rcases hnoP.1 f hfm hflive p hpar with ⟨q, hq, hqmid, hql, hqu⟩
      rcases forall2_mem_left hmaster.1 hq with ⟨q', hq'm, hrelq⟩
      rcases hrelq.1 with heq | ⟨heq, hqu2, hrl⟩
      · exact ⟨q', hq'm, by rw [heq]; exact hqmid, by rw [heq]; exact hql,
          by rw [heq, hff]; exact hqu⟩
      · exfalso
        have hfu : f.userId = u := by rw [← hqu]; exact hqu2
        have hstep : ReachesLive db u idD f.mid :=
          ReachesLive.step hfm hflive hfu (by rw [hpar, hqmid]) hrl
        have hdead := hrel.2 rfl hstep
        rw [hdead] at hfl
        exact Bool.noConfusion hfl
    · intro x' hx' hxl p hp
      rcases forall2_mem_right hmaster.2 hx' with ⟨x, hxm, hrel⟩
      have hxx : x' = x := by
        rcases hrel.1 with he | ⟨he, -, -, -⟩
        · exact he
        · rw [he] at hxl; exact absurd hxl (by simp [markFile])
      have hxlive : x.isDeleted = false := by rw [← hxx]; exact hxl
      have hpx : x.folderId = some p := by rw [← hxx]; exact hp
      rcases hnoP.2 x hxm hxlive p hpx with ⟨q, hq, hqmid, hql, hqu⟩
      rcases forall2_mem_left hmaster.1 hq with ⟨q', hq'm, hrelq⟩
      rcases hrelq.1 with heq | ⟨heq, hqu2, hrl⟩
      · exact ⟨q', hq'm, by rw [heq]; exact hqmid, by rw [heq]; exact hql,
          by rw [heq, hxx]; exact hqu⟩
      · exfalso
        have hxu : x.userId = u := by rw [← hqu]; exact hqu2
        have hdead := hrel.2 rfl hxlive hxu p hpx (by rw [← hqmid]; exact hrl)
        rw [hdead] at hxl
        exact Bool.noConfusion hxl
  · obtain ⟨-, hcF⟩ := filesPOST_cases u fname fsize fmime folderId maxFileSize
      storedName newIdF now db
    rcases hcF with h | ⟨xr, hok, hxru, hxrl, hxrd, hxpp, h⟩
    · rw [h]; exact hno
    · rw [h, noOrphansB_iff]
      constructor
      · intro f hf hfl2 p hp
        exact hnoP.1 f hf hfl2 p hp
      · intro x hx hxl p hp
        rcases List.mem_append.mp hx with hm | hm
        · exact hnoP.2 x hm hxl p hp
        · have hxxr : x = xr := List.mem_singleton.mp hm
          rcases hxpp hfid with hnone | ⟨q, hq, hqp, hql, hqu⟩
          · rw [hxxr, hnone] at hp
            exact Option.noConfusion hp
          · rw [hxxr, hqp] at hp
            have hqe : q.mid = p := Option.some.inj hp
            exact ⟨q, hq, hqe, hql, by rw [hxxr, hxru]; exact hqu⟩
  · rcases filePUT_cases u idF nameF db with h | h
    · rw [h]; exact hno
    · rw [h]
      exact noOrphans_files_update db _ _ (fun x hl => ⟨rfl, rfl, hl⟩) hno
  · rcases fileDELETE_cases u idF now db with h | h
    · rw [h]; exact hno
    · rw [h]
      exact noOrphans_files_update db _ _
        (fun x hl => absurd hl (by simp [markFile])) hno

/-- C4 (witness). -/
theorem c4_witness :
    noOrphansB (foldersPOST "u" "A" none "n1" 7
      (DB.mk [⟨"f", "F", "u", none, false, none, 0⟩] [])).2 = true ∧
    noOrphansB (folderPUT "u" "f" "A"
      (DB.mk [⟨"f", "F", "u", none, false, none, 0⟩] [])).2 = true ∧
    (folderDELETE "u" "f" 1 7
        (DB.mk [⟨"f", "F", "u", none, false, none, 0⟩] []) =
        (Except.ok (), DB.mk [⟨"f", "F", "u", none, true, some 7, 0⟩] []) →
      noOrphansB (DB.mk [⟨"f", "F", "u", none, true, some 7, 0⟩] []) = true) ∧
    noOrphansB (filesPOST "u" "c.txt" 4 "text/plain" none 10 "sn" "n2" 7
      (DB.mk [⟨"f", "F", "u", none, false, none, 0⟩] [])).2 = true ∧
    noOrphansB (filePUT "u" "x1" "B"
      (DB.mk [⟨"f", "F", "u", none, false, none, 0⟩] [])).2 = true ∧
    noOrphansB (fileDELETE "u" "x1" 7
      (DB.mk [⟨"f", "F", "u", none, false, none, 0⟩] [])).2 = true :=
  c4_no_orphans "u" "A" "B" "x1" "f" "c.txt" none none "n1" "n2" 1 7 4 10
    "text/plain" "sn" (DB.mk [⟨"f", "F", "u", none, false, none, 0⟩] [])
    (DB.mk [⟨"f", "F", "u", none, true, some 7, 0⟩] [])
    (by decide) (by decide) (by decide)

/-- C1: cascade completeness and frame.  For a state with unique folder ids
satisfying the no-orphans invariant, after deleteFolder returns success,
pointwise over both collections: every folder that was live and reachable
from the deleted root by child links is now soft-deleted and every folder
not reachable is unchanged; every file that was live and sat directly inside
a reachable folder is now soft-deleted, and every file at the top level or
inside an unreachable folder is unchanged. -/
theorem c1_cascade_completeness (u fid : String) (fuel now : Nat) (db db' : DB)
    (hnd : (db.folders.map FolderR.mid).Nodup)
    (hno : noOrphansB db = true)
    (h : folderDELETE u fid fuel now db = (Except.ok (), db')) :
    List.Forall₂ (fun f f' =>
      (f.isDeleted = false → Reaches db fid f.mid → f'.isDeleted = true) ∧
      (¬Reaches db fid f.mid → f' = f)) db.folders db'.folders ∧
    List.Forall₂ (fun x x' =>
      (x.isDeleted = false → ∀ p, x.folderId = some p → Reaches db fid p →
        x'.isDeleted = true) ∧
      (x.folderId = none → x' = x) ∧
      (∀ p, x.folderId = some p → ¬Reaches db fid p → x' = x))
      db.files db'.files := by
  rcases folderDELETE_ok_inv h with ⟨f0, hfind, hflag, hdb2⟩
  rcases findLiveOwnedFolder_some hfind with ⟨hf0m, hf0mid, hf0u, hf0l⟩
  have hor : OwnRoot db u fid := by
    intro f hf hmid
    have hef : f = f0 := nodup_map_inj hnd hf hf0m (by rw [hmid, hf0mid])
    rw [hef]; exact hf0u
  have hmaster := cascade_master u now fuel fid db hnd hor
  simp only at hmaster
  rw [hflag, hdb2] at hmaster
  have hnoP := (noOrphansB_iff db).1 hno
  constructor
  · refine forall2_imp_mem hmaster.1 ?_
    intro f hf f' hf' hrel
    constructor
    · intro hflive hreach
      have hrl := (reaches_to_reachesLive hnd hno hf0m hf0mid hf0u hf0l hreach
        f hf rfl hflive).1
      exact hrel.2 rfl hrl
    · intro hnr
      rcases hrel.1 with he | ⟨he, -, hrl⟩
      · exact he
      · exact absurd (reachesLive_to_reaches hrl) hnr
  · refine forall2_imp_mem hmaster.2 ?_
    intro x hx x' hx' hrel
    refine ⟨?_, ?_, ?_⟩
    · intro hxlive p hp hreach
      rcases hnoP.2 x hx hxlive p hp with ⟨q, hq, hqmid, hql, hqu⟩
      have hpr := reaches_to_reachesLive hnd hno hf0m hf0mid hf0u hf0l hreach
        q hq hqmid hql
      have hxu : x.userId = u := by rw [← hqu]; exact hpr.2
      exact hrel.2 rfl hxlive hxu p hp hpr.1
    · intro hpnone
      rcases hrel.1 with he | ⟨he, -, -, p2, hp2, hrl⟩
      · exact he
      · rw [hpnone] at hp2
        exact Option.noConfusion hp2
    · intro p hp hnr
      rcases hrel.1 with he | ⟨he, -, -, p2, hp2, hrl⟩
      · exact he
      · rw [hp] at hp2
        have hpe : p2 = p := (Option.some.inj hp2).symm
        rw [hpe] at hrl
        exact absurd (reachesLive_to_reaches hrl) hnr

/-- C1 (witness). -/
theorem c1_witness :
    List.Forall₂ (fun (f f' : FolderR) =>
      (f.isDeleted = false →
        Reaches (DB.mk [⟨"f", "F", "u", none, false, none, 0⟩,
            ⟨"c", "C", "u", some "f", false, none, 0⟩]
          [⟨"x", "sx", "x.txt", 1, "text/plain", "u", some "f", false, none, 0⟩])
          "f" f.mid → f'.isDeleted = true) ∧
      (¬Reaches (DB.mk [⟨"f", "F", "u", none, false, none, 0⟩,
            ⟨"c", "C", "u", some "f", false, none, 0⟩]
          [⟨"x", "sx", "x.txt", 1, "text/plain", "u", some "f", false, none, 0⟩])
          "f" f.mid → f' = f))
      [⟨"f", "F", "u", none, false, none, 0⟩,
       ⟨"c", "C", "u", some "f", false, none, 0⟩]
      [⟨"f", "F", "u", none, true, some 9, 0⟩,
       ⟨"c", "C", "u", some "f", true, some 9, 0⟩] ∧
    List.Forall₂ (fun (x x' : FileR) =>
      (x.isDeleted = false → ∀ p, x.folderId = some p →
        Reaches (DB.mk [⟨"f", "F", "u", none, false, none, 0⟩,
            ⟨"c", "C", "u", some "f", false, none, 0⟩]
          [⟨"x", "sx", "x.txt", 1, "text/plain", "u", some "f", false, none, 0⟩])
          "f" p → x'.isDeleted = true) ∧
      (x.folderId = none → x' = x) ∧
      (∀ p, x.folderId = some p →
        ¬Reaches (DB.mk [⟨"f", "F", "u", none, false, none, 0⟩,
            ⟨"c", "C", "u", some "f", false, none, 0⟩]
          [⟨"x", "sx", "x.txt", 1, "text/plain", "u", some "f", false, none, 0⟩])
          "f" p → x' = x))
      [⟨"x", "sx", "x.txt", 1, "text/plain", "u", some "f", false, none, 0⟩]
      [⟨"x", "sx", "x.txt", 1, "text/plain", "u", some "f", true, some 9, 0⟩] :=
  c1_cascade_completeness "u" "f" 2 9
    (DB.mk [⟨"f", "F", "u", none, false, none, 0⟩,
        ⟨"c", "C", "u", some "f", false, none, 0⟩]
      [⟨"x", "sx", "x.txt", 1, "text/plain", "u", some "f", false, none, 0⟩])
    (DB.mk [⟨"f", "F", "u", none, true, some 9, 0⟩,
        ⟨"c", "C", "u", some "f", true, some 9, 0⟩]
      [⟨"x", "sx", "x.txt", 1, "text/plain", "u", some "f", true, some 9, 0⟩])
    (by decide) (by decide) (by decide)

end Drive
